import Mathlib

/-!
# Verification of the `proc_extrato` statement extractor

Shallow embedding of `src/proc_extrato.py` (Brazilian bank-statement field
extraction).  Strings are modelled as `List Char`; Python's `float` is
idealised as an exact rational (`ℚ`) together with the IEEE special values
`inf`, `-inf` and `nan` — binary rounding and overflow of doubles are not
modelled, which is irrelevant for the exact two-decimal amounts the program
manipulates.

The numeric-token regular expression
`(?<!\d)[+-]?\d{1,3}(?:\.\d{3})*(?:,\d+)?(?![\d,])|[+-]?\d+,\d+`
is compiled by hand into an explicit backtracking matcher (`matchA` for the
first alternative, `matchB` for the second), and the `finditer`/`findall`
scan loop into `scanAux`.
-/

unseal Rat.add Rat.mul Rat.inv Rat.sub

namespace ProcExtrato

abbrev Str := List Char

def strL (s : String) : Str := s.data

/-- `\d` of the pattern (ASCII decimal digits; the inputs of interest are
ASCII, so the larger Unicode digit class coincides with this one there). -/
def isDigitC (c : Char) : Bool := c.isDigit

/-- `\s` of the pattern (the ASCII whitespace class used by Python). -/
def isWsC (c : Char) : Bool :=
  c == ' ' || c == '\t' || c == '\n' || c == '\r' || c == '\x0b' || c == '\x0c'

/-- Python `str.lstrip` for whitespace. -/
def lstripWs (l : Str) : Str := l.dropWhile isWsC

/-- Python `str.rstrip` for whitespace. -/
def rstripWs : Str → Str
  | [] => []
  | c :: cs =>
    match rstripWs cs with
    | [] => if isWsC c then [] else [c]
    | r => c :: r

/-- Python `str.strip` for whitespace. -/
def stripWs (l : Str) : Str := lstripWs (rstripWs l)

/-- `re.sub(r'\s+', ' ', ·)`: the flag records whether the previous
character belonged to a whitespace run already replaced by `' '`. -/
def collapseAux : Bool → Str → Str
  | _, [] => []
  | b, c :: cs =>
    if isWsC c then
      if b then collapseAux true cs else ' ' :: collapseAux true cs
    else c :: collapseAux false cs

def collapseWs (l : Str) : Str := collapseAux false l

/-- `limpar` of the source: collapse whitespace runs, then strip. -/
def limpar (l : Str) : Str := stripWs (collapseWs l)

/-- Python `str.upper`, restricted to ASCII plus the accented letters of
the pt-BR alphabet that occur in the program's string constants. -/
def upperChar (c : Char) : Char :=
  match c with
  | 'á' => 'Á' | 'à' => 'À' | 'â' => 'Â' | 'ã' => 'Ã'
  | 'é' => 'É' | 'ê' => 'Ê' | 'í' => 'Í'
  | 'ó' => 'Ó' | 'ô' => 'Ô' | 'õ' => 'Õ'
  | 'ú' => 'Ú' | 'ç' => 'Ç'
  | _ => c.toUpper

def upperL (l : Str) : Str := l.map upperChar

/-- Python's substring test `needle in hay`. -/
def containsSub (hay needle : Str) : Bool :=
  hay.tails.any (fun t => needle.isPrefixOf t)

/-- Python `sep.join(xs)`. -/
def joinSep (sep : Str) : List Str → Str
  | [] => []
  | [x] => x
  | x :: xs => x ++ sep ++ joinSep sep xs

/-- Python `hay.rfind(pat)`: offset of the last occurrence. -/
def rfindSub (hay pat : Str) : Option Nat :=
  (List.range (hay.length + 1)).reverse.find? (fun i => pat.isPrefixOf (hay.drop i))

/-! ## The numeric token recognizer (`RE_NUM_BR`) -/

/-- Length of an optional leading `[+-]` sign. -/
def sgnLen (l : Str) : Nat :=
  match l with
  | c :: _ => if c = '+' ∨ c = '-' then 1 else 0
  | [] => 0

/-- The negative lookahead `(?![\d,])` at the current position. -/
def lookaheadOK (l : Str) : Bool :=
  match l with
  | [] => true
  | c :: _ => !(isDigitC c || c == ',')

/-- Maximal number of repetitions of `(?:\.\d{3})` (greedy star). -/
def groupsCount : Str → Nat
  | '.' :: a :: b :: c :: rest =>
    if isDigitC a && isDigitC b && isDigitC c then groupsCount rest + 1 else 0
  | _ => 0

/-- `[n, n-1, ..., 1]`: the candidate order of a greedy bounded repetition. -/
def revSeq : Nat → List Nat
  | 0 => []
  | n + 1 => (n + 1) :: revSeq n

/-- `[n, n-1, ..., 0]`: the candidate order of a greedy star / option. -/
def revSeq0 : Nat → List Nat
  | 0 => [0]
  | n + 1 => (n + 1) :: revSeq0 n

/-- First success of an ordered candidate list (backtracking search). -/
def firstSome : List α → (α → Option β) → Option β
  | [], _ => none
  | a :: as, f =>
    match f a with
    | some b => some b
    | none => firstSome as f

/-- Alternative `[+-]?\d{1,3}(?:\.\d{3})*(?:,\d+)?(?![\d,])` of `RE_NUM_BR`
at the head of `l`, as Python's backtracking engine runs it; the result is
the number of characters consumed.  (The leading `(?<!\d)` lookbehind is
checked by the scan loop, which knows the previous character.  Backtracking
over the optional sign is omitted: dropping a present sign leaves the sign
character where a digit is required, so that branch can never succeed.) -/
def matchA (l : Str) : Option Nat :=
  let sg := sgnLen l
  let l1 := l.drop sg
  let r := (l1.takeWhile isDigitC).length
  firstSome (revSeq (min 3 r)) (fun d =>
    let l2 := l1.drop d
    firstSome (revSeq0 (groupsCount l2)) (fun g =>
      let l3 := l2.drop (4 * g)
      let base := sg + d + 4 * g
      match l3 with
      | ',' :: l4 =>
        let k := (l4.takeWhile isDigitC).length
        match firstSome (revSeq k)
            (fun j => if lookaheadOK (l4.drop j) then some (base + 1 + j) else none) with
        | some n => some n
        | none => if lookaheadOK l3 then some base else none
      | _ => if lookaheadOK l3 then some base else none))

/-- Alternative `[+-]?\d+,\d+` of `RE_NUM_BR` at the head of `l`.
(`\d+` is greedy and every shorter choice leaves a digit where `,` is
required, so only the full digit run needs to be tried; likewise nothing
follows the final greedy `\d+`.) -/
def matchB (l : Str) : Option Nat :=
  let sg := sgnLen l
  let l1 := l.drop sg
  let r := (l1.takeWhile isDigitC).length
  if r = 0 then none
  else
    match l1.drop r with
    | ',' :: l2 =>
      let k := (l2.takeWhile isDigitC).length
      if k = 0 then none else some (sg + r + 1 + k)
    | _ => none

structure Tok where
  start : Nat
  len : Nat
  text : Str
  fromA : Bool
deriving DecidableEq

def prevDigit : Option Char → Bool
  | some c => isDigitC c
  | none => false

/-- The `finditer` scan loop: leftmost match, first alternative preferred,
resuming after each match, advancing one character on failure.  `prev` is
the character before the current position (for the `(?<!\d)` lookbehind of
alternative A); `pos` the current offset; the fuel is bounded by the string
length since every step consumes at least one character. -/
def scanAux : Nat → Option Char → Str → Nat → List Tok
  | 0, _, _, _ => []
  | f + 1, prev, l, pos =>
    match l with
    | [] => []
    | c :: rest =>
      match if prevDigit prev then none else matchA l with
      | some n =>
        ⟨pos, n, l.take n, true⟩ :: scanAux f (l.take n).getLast? (l.drop n) (pos + n)
      | none =>
        match matchB l with
        | some n =>
          ⟨pos, n, l.take n, false⟩ :: scanAux f (l.take n).getLast? (l.drop n) (pos + n)
        | none => scanAux f (some c) rest (pos + 1)

def scanTokens (s : Str) : List Tok := scanAux (s.length + 1) none s 0

/-- `RE_NUM_BR.findall`. -/
def findall (s : Str) : List Str := (scanTokens s).map Tok.text

/-- `contar_numeros_br`. -/
def contar_numeros_br (s : Str) : Nat := (findall s).length

/-! ## `RE_DATA_INICIO`: `^\s*(\d{2}/\d{2}/\d{4})\s+` -/

/-- `RE_DATA_INICIO.match`: on success returns the captured date (group 1)
and `m.end()`, the offset past the trailing whitespace run. -/
def matchDataInicio (s : Str) : Option (Str × Nat) :=
  let w := (s.takeWhile isWsC).length
  match s.drop w with
  | d1 :: d2 :: '/' :: d3 :: d4 :: '/' :: d5 :: d6 :: d7 :: d8 :: rest =>
    if [d1, d2, d3, d4, d5, d6, d7, d8].all isDigitC then
      let k := (rest.takeWhile isWsC).length
      if k = 0 then none
      else some ([d1, d2, '/', d3, d4, '/', d5, d6, d7, d8], w + 10 + k)
    else none
  | _ => none

/-! ## The line classifier -/

def STOPWORDS : List Str :=
  [strL "PÁGINA", strL "PAGINA", strL "PÁG", strL "PAG", strL "AGÊNCIA",
   strL "AGENCIA", strL "CNPJ", strL "BANCO", strL "WWW", strL "SITE",
   strL "CENTRAL DE ATENDIMENTO", strL "OUVIDORIA", strL "ATENDIMENTO",
   strL "SAC", strL "SALDO DO DIA", strL "EXTRATO", strL "DEMONSTRATIVO",
   strL "ENDEREÇO", strL "ENDERECO", strL "CPF/CNPJ", strL "HORÁRIO",
   strL "HORARIO"]

def is_transaction_line (line : Str) (require_date : Bool) (min_numbers : Int)
    (contains_any : List Str) : Bool :=
  let u := upperL line
  if STOPWORDS.any (fun w => containsSub u w) then false
  else if require_date && !(matchDataInicio line).isSome then false
  else if 0 < min_numbers ∧ (contar_numeros_br line : Int) < min_numbers then false
  else if !contains_any.isEmpty
      && !(contains_any.any fun k =>
            !(stripWs k).isEmpty && containsSub u (upperL (stripWs k))) then false
  else true

/-! ## Python floats (idealised as exact rationals plus special values) -/

inductive PyFloat where
  | val (q : ℚ)
  | inf
  | ninf
  | nan
deriving DecidableEq

def natOfDigits (ds : Str) : Nat :=
  ds.foldl (fun a c => a * 10 + (c.toNat - '0'.toNat)) 0

/-- Continuation of a digit sequence that may contain underscores between
digits (the Python `float` literal grammar); the first digit has already
been consumed by `parseUDigits`. -/
def udigitsAux : Str → Str × Str
  | '_' :: c :: rest =>
    if isDigitC c then
      let p := udigitsAux rest
      (c :: p.1, p.2)
    else ([], '_' :: c :: rest)
  | c :: rest =>
    if isDigitC c then
      let p := udigitsAux rest
      (c :: p.1, p.2)
    else ([], c :: rest)
  | [] => ([], [])

/-- A nonempty digit sequence with optional underscores between digits:
returns the digits (underscores removed) and the remaining input. -/
def parseUDigits (l : Str) : Option (Str × Str) :=
  match l with
  | c :: rest =>
    if isDigitC c then
      let p := udigitsAux rest
      some (c :: p.1, p.2)
    else none
  | [] => none

/-- `digitpart? ('.' digitpart?)?` with at least one digit overall:
returns integer digits, fraction digits and the remaining input. -/
def parseMantissa (l : Str) : Option (Str × Str × Str) :=
  match parseUDigits l with
  | some (ip, r1) =>
    match r1 with
    | '.' :: r2 =>
      match parseUDigits r2 with
      | some (fp, r3) => some (ip, fp, r3)
      | none => some (ip, [], r2)
    | _ => some (ip, [], r1)
  | none =>
    match l with
    | '.' :: r2 =>
      match parseUDigits r2 with
      | some (fp, r3) => some ([], fp, r3)
      | none => none
    | _ => none

/-- `(e|E) sign? digitpart`. -/
def parseExp (l : Str) : Option (Int × Str) :=
  match l with
  | c :: r1 =>
    if c = 'e' ∨ c = 'E' then
      let p : Int × Str :=
        match r1 with
        | '+' :: r => (1, r)
        | '-' :: r => (-1, r)
        | _ => (1, r1)
      match parseUDigits p.2 with
      | some (ds, r3) => some (p.1 * (natOfDigits ds : Int), r3)
      | none => none
    else none
  | [] => none

def lowerL (l : Str) : Str := l.map Char.toLower

/-- Python's `float(str)` conversion: `none` models the `ValueError`. -/
def pyFloatOfString (l : Str) : Option PyFloat :=
  let t := stripWs l
  let s : Bool × Str :=
    match t with
    | '+' :: r => (false, r)
    | '-' :: r => (true, r)
    | _ => (false, t)
  let low := lowerL s.2
  if low = strL "inf" ∨ low = strL "infinity" then
    some (if s.1 then PyFloat.ninf else PyFloat.inf)
  else if low = strL "nan" then some PyFloat.nan
  else
    match parseMantissa s.2 with
    | some (ip, fp, r1) =>
      let e : Int × Str :=
        match parseExp r1 with
        | some (x, r) => (x, r)
        | none => (0, r1)
      if e.2 = [] then
        let m : ℚ := (natOfDigits (ip ++ fp) : ℚ) * (10 : ℚ) ^ (e.1 - (fp.length : Int))
        some (PyFloat.val (if s.1 then -m else m))
      else none
    | none => none

/-- `s.replace(".", "").replace(",", ".")`. -/
def normalizeBr (t : Str) : Str :=
  (t.filter fun c => !(c == '.')).map fun c => if c = ',' then '.' else c

/-- `br_to_float`: strip, early-out on empty, delete `.`, turn `,` into
`.`, convert — returning `0.0` when the conversion raises `ValueError`. -/
def br_to_float (l : Str) : PyFloat :=
  let t := stripWs l
  if t.isEmpty then PyFloat.val 0
  else
    match pyFloatOfString (normalizeBr t) with
    | some v => v
    | none => PyFloat.val 0

/-- Round a nonnegative rational to the nearest integer, ties to even
(the rounding of Python's fixed-point format). -/
def roundHalfEvenPos (q : ℚ) : Nat :=
  let n := q.num.toNat
  let d := q.den
  let w := n / d
  let r := n % d
  if 2 * r < d then w else if d < 2 * r then w + 1 else if w % 2 = 0 then w else w + 1

def natDigits (n : Nat) : Str := Nat.toDigits 10 n

/-- Thousands grouping of a reversed digit string (comma every 3 digits). -/
def g3 : Str → Str
  | a :: b :: c :: d :: rest => a :: b :: c :: ',' :: g3 (d :: rest)
  | l => l

def replAll (a b : Char) (l : Str) : Str := l.map fun c => if c = a then b else c

/-- `float_to_br`: `f"{x:,.2f}"` followed by the separator-swapping
`replace` chain of the source. -/
def float_to_br (x : PyFloat) : Str :=
  match x with
  | PyFloat.val q =>
    let neg := decide (q < 0)
    let m := roundHalfEvenPos ((if q < 0 then -q else q) * 100)
    let ipart := (g3 (natDigits (m / 100)).reverse).reverse
    let fpart := [Char.ofNat ('0'.toNat + m / 10 % 10), Char.ofNat ('0'.toNat + m % 10)]
    let us := (if neg then ['-'] else []) ++ ipart ++ '.' :: fpart
    replAll 'X' '.' (replAll '.' ',' (replAll ',' 'X' us))
  | PyFloat.inf => strL "inf"
  | PyFloat.ninf => strL "-inf"
  | PyFloat.nan => strL "nan"

/-- IEEE addition on the idealised floats. -/
def pyAdd : PyFloat → PyFloat → PyFloat
  | PyFloat.nan, _ => PyFloat.nan
  | _, PyFloat.nan => PyFloat.nan
  | PyFloat.inf, PyFloat.ninf => PyFloat.nan
  | PyFloat.ninf, PyFloat.inf => PyFloat.nan
  | PyFloat.inf, _ => PyFloat.inf
  | _, PyFloat.inf => PyFloat.inf
  | PyFloat.ninf, _ => PyFloat.ninf
  | _, PyFloat.ninf => PyFloat.ninf
  | PyFloat.val a, PyFloat.val b => PyFloat.val (a + b)

/-! ## `extrair_campos_texto` and the line-based processors -/

/-- Steps 1–2 of `extrair_campos_texto`: strip the line and split off a
leading date, returning `(data, sem_data)`. -/
def extrDataSem (linha : Str) : Str × Str :=
  let original := stripWs linha
  match matchDataInicio original with
  | some (d, e) => (d, original.drop e)
  | none => ([], original)

/-- `extrair_campos_texto`: `(data, descricao, penultimo_valor, saldo)`. -/
def extrair_campos_texto (linha : Str) : Str × Str × Str × Str :=
  let p := extrDataSem linha
  let sem_data := p.2
  let nums := scanTokens sem_data
  match nums.reverse with
  | t2 :: t1 :: _ =>
    (p.1, stripWs (collapseWs (rstripWs (sem_data.take t1.start))), t1.text, t2.text)
  | [t1] => (p.1, stripWs (collapseWs sem_data), [], t1.text)
  | [] => (p.1, stripWs (collapseWs sem_data), [], [])

structure Rec where
  data : Str
  descricao : Str
  penultimo_valor : Str
  saldo : Str
  linha_original : Str
deriving DecidableEq

def recOfLine (line : Str) : Rec :=
  let e := extrair_campos_texto line
  ⟨e.1, e.2.1, e.2.2.1, e.2.2.2, line⟩

/-- `process_txt`, over the already-split lines of the file (each line
stripped of its terminating newline, as by `line.rstrip('\n')`). -/
def process_txt (lines : List Str) : List Rec :=
  lines.filterMap fun line =>
    if (stripWs line).isEmpty then none else some (recOfLine line)

/-- The loop body of `process_csv` over the values of the designated
column (the `csv.DictReader` collaborator is external). -/
def process_csv (vals : List Str) : List Rec :=
  vals.filterMap fun v =>
    let line := stripWs v
    if line.isEmpty then none else some (recOfLine line)

/-- `process_pdf_text`, over the raw text lines provided per page by the
external PDF-extraction collaborator. -/
def process_pdf_text (lines : List Str) (keep_all require_date : Bool)
    (min_numbers : Int) (contains_any : List Str) : List Rec :=
  lines.filterMap fun raw =>
    let line := limpar raw
    if line.isEmpty then none
    else if !keep_all && !is_transaction_line line require_date min_numbers contains_any
    then none
    else some (recOfLine line)

/-! ## `process_pdf_tables` -/

abbrev Cell := Option Str
abbrev TRow := List Cell

/-- `[limpar(c) for c in r if c is not None]`. -/
def rowCells (r : TRow) : List Str := (r.filterMap id).map limpar

/-- `" ".flatten(cells).upper()`. -/
def rowJoinedUpper (r : TRow) : Str := upperL (joinSep [' '] (rowCells r))

/-- `" | ".flatten(cells)`. -/
def rowJoined (r : TRow) : Str := joinSep (strL " | ") (rowCells r)

/-- `" ".flatten(cells)`. -/
def rowFlat (r : TRow) : Str := joinSep [' '] (rowCells r)

/-- The two title/header `continue` tests (observationally a single skip). -/
def rowIsHeader (r : TRow) : Bool :=
  let ju := rowJoinedUpper r
  (strL "EXTRATO ").isPrefixOf ju || containsSub ju (strL "PERÍODO DE")
    || containsSub ju (strL "PERIODO DE")
    || (containsSub ju (strL "DATA") && containsSub ju (strL "DESCRI")
        && containsSub ju (strL "VALOR"))

/-- Leading-date extraction on `flat`: `(data, resto)`. -/
def rowDataResto (r : TRow) : Str × Str :=
  let flat := rowFlat r
  match matchDataInicio flat with
  | some (d, e) => (d, stripWs (flat.drop e))
  | none => ([], flat)

/-- `joined.strip(" |")`. -/
def stripPipes (l : Str) : Str :=
  ((l.dropWhile fun c => c == ' ' || c == '|').reverse.dropWhile
    (fun c => c == ' ' || c == '|')).reverse

/-- Shared tail of the data branches: resync `saldo_corrente` from a
non-empty `saldo_str`, collapse the description, strip the original line,
emit the record. -/
def emitRow (saldo : Option PyFloat) (data descricao0 penult saldoStr joined : Str) :
    Option PyFloat × List Rec :=
  (if saldoStr.isEmpty then saldo else some (br_to_float saldoStr),
   [⟨data, stripWs (collapseWs descricao0), penult, saldoStr, stripPipes joined⟩])

/-- One row of the `process_pdf_tables` loop: next accumulator state and
the records the row emits. -/
def stepRow (saldo : Option PyFloat) (r : TRow) : Option PyFloat × List Rec :=
  if !(rowCells r).any (fun c => !c.isEmpty) then (saldo, [])
  else if rowIsHeader r then (saldo, [])
  else if (rowFlat r).isEmpty then (saldo, [])
  else if containsSub (rowJoinedUpper r) (strL "SALDO ANTERIOR") then
    match (findall (rowFlat r)).getLast? with
    | some n => (some (br_to_float n), [⟨[], strL "SALDO ANTERIOR", [], n, rowJoined r⟩])
    | none => (saldo, [])
  else
    let dr := rowDataResto r
    let resto := dr.2
    match (findall resto).reverse with
    | s2 :: s1 :: _ =>
      let descricao0 :=
        match rfindSub resto s1 with
        | some i => stripWs (resto.take i)
        | none => resto
      emitRow saldo dr.1 descricao0 s1 s2 (rowJoined r)
    | [s1] =>
      let p : Option PyFloat × Str :=
        match saldo with
        | some sc => (some (pyAdd sc (br_to_float s1)), float_to_br (pyAdd sc (br_to_float s1)))
        | none => (none, [])
      let descricao0 :=
        match rfindSub resto s1 with
        | some i => stripWs (resto.take i)
        | none => resto
      emitRow p.1 dr.1 descricao0 s1 p.2 (rowJoined r)
    | [] => (saldo, [])

/-- The table loop over all rows (of all tables of all pages, in order),
threading `saldo_corrente`, which starts out `None` per document. -/
def process_rows (saldo : Option PyFloat) : List TRow → Option PyFloat × List Rec
  | [] => (saldo, [])
  | r :: rs =>
    let p := stepRow saldo r
    let q := process_rows p.1 rs
    (q.1, p.2 ++ q.2)

def process_pdf_tables (rows : List TRow) : List Rec := (process_rows none rows).2

/-! ## `main`'s dispatch (file IO, argument parsing and the pdfplumber
collaborator are external; a `Source` carries the content they deliver) -/

structure Config where
  keep_all : Bool
  require_date : Bool
  min_numbers : Int
  contains_any : List Str
  tables_mode : Bool

inductive Source where
  | txt (lines : List Str)
  | csv (colVals : Option (List Str))
  | pdf (tableRows : List TRow) (textLines : List Str)
  | other

/-- The extension dispatch of `main`; `Except.error` models `SystemExit`.
A `csv` source with `none` stands for a missing/unknown `--col`. -/
def runExtraction (src : Source) (cfg : Config) : Except Str (List Rec) :=
  match src with
  | Source.txt lines => Except.ok (process_txt lines)
  | Source.csv none => Except.error (strL "--col")
  | Source.csv (some vals) => Except.ok (process_csv vals)
  | Source.pdf tableRows textLines =>
    if cfg.tables_mode then
      let rows := process_pdf_tables tableRows
      Except.ok (if rows.isEmpty then
        process_pdf_text textLines cfg.keep_all cfg.require_date cfg.min_numbers
          cfg.contains_any
      else rows)
    else
      Except.ok (process_pdf_text textLines cfg.keep_all cfg.require_date
        cfg.min_numbers cfg.contains_any)
  | Source.other => Except.error (strL "Use .txt, .csv ou .pdf.")

/-! ## The spec-side amount grammar

`specValidAmount` is the *specification's* definition of a valid
Brazilian-formatted amount (§3 "NumericToken"), written from the spec's
words, to be compared with the recognizer compiled from the source:
an optional sign, 1–3 leading digits, zero or more groups of exactly
three digits each preceded by a period, and an optional comma followed by
one or more digits; alternatively sign, digits, comma, digits. -/

def signOpt (sg : Str) : Prop := sg = [] ∨ sg = ['+'] ∨ sg = ['-']

def specFormA (s : Str) : Prop :=
  ∃ (sg d : Str) (gs : List Str) (dec : Str),
    signOpt sg ∧ 1 ≤ d.length ∧ d.length ≤ 3 ∧ (∀ c ∈ d, isDigitC c = true) ∧
    (∀ g ∈ gs, g.length = 3 ∧ ∀ c ∈ g, isDigitC c = true) ∧
    (dec = [] ∨ ∃ ds, dec = ',' :: ds ∧ ds ≠ [] ∧ ∀ c ∈ ds, isDigitC c = true) ∧
    s = sg ++ d ++ (gs.map fun g => '.' :: g).flatten ++ dec

def specFormB (s : Str) : Prop :=
  ∃ sg d1 d2 : Str,
    signOpt sg ∧ d1 ≠ [] ∧ d2 ≠ [] ∧ (∀ c ∈ d1, isDigitC c = true) ∧
    (∀ c ∈ d2, isDigitC c = true) ∧ s = sg ++ d1 ++ ',' :: d2

def specValidAmount (s : Str) : Prop := specFormA s ∨ specFormB s

/-! ## General lemmas -/

theorem rstripWs_cons (c : Char) (cs : Str) :
    rstripWs (c :: cs) =
      if rstripWs cs = [] then (if isWsC c then [] else [c]) else c :: rstripWs cs := by
  cases h : rstripWs cs <;> simp [rstripWs, h]

theorem rstripWs_eq_nil_iff (l : Str) :
    rstripWs l = [] ↔ ∀ c ∈ l, isWsC c = true := by
  induction l with
  | nil => simp [rstripWs]
  | cons c cs ih =>
    rw [rstripWs_cons]
    constructor
    · intro h
      by_cases hcs : rstripWs cs = []
      · rw [if_pos hcs] at h
        by_cases hw : isWsC c = true
        · intro d hd
          rcases List.mem_cons.mp hd with rfl | hd'
          · exact hw
          · exact ih.mp hcs d hd'
        · rw [if_neg hw] at h; cases h
      · rw [if_neg hcs] at h; cases h
    · intro hall
      have hcs : rstripWs cs = [] := ih.mpr fun d hd => hall d (List.mem_cons_of_mem c hd)
      rw [if_pos hcs, if_pos (hall c (List.mem_cons_self c cs))]

theorem collapseAux_cons (b : Bool) (c : Char) (cs : Str) :
    collapseAux b (c :: cs) =
      if isWsC c then (if b then collapseAux true cs else ' ' :: collapseAux true cs)
      else c :: collapseAux false cs := rfl

theorem rstrip_cons_congr {z1 z2 : Str} (c : Char) (h : rstripWs z1 = rstripWs z2) :
    rstripWs (c :: z1) = rstripWs (c :: z2) := by
  rw [rstripWs_cons, rstripWs_cons, h]

theorem collapseAux_allWs (cs : Str) (h : ∀ c ∈ cs, isWsC c = true) (b : Bool) :
    rstripWs (collapseAux b cs) = [] := by
  induction cs generalizing b with
  | nil => rfl
  | cons c cs ih =>
    have hw := h c (List.mem_cons_self c cs)
    have h2 : ∀ d ∈ cs, isWsC d = true := fun d hd => h d (List.mem_cons_of_mem c hd)
    rw [collapseAux_cons, if_pos hw]
    cases b
    · simp only [Bool.false_eq_true, if_false]
      rw [rstripWs_cons, ih h2 true]
      simp [isWsC]
    · simp only [if_true]
      exact ih h2 true

/-- Stripping trailing whitespace before collapsing whitespace runs does
not change the collapsed-and-right-stripped result. -/
theorem rstrip_collapse_rstrip (x : Str) :
    ∀ b, rstripWs (collapseAux b (rstripWs x)) = rstripWs (collapseAux b x) := by
  induction x with
  | nil => intro b; rfl
  | cons c cs ih =>
    intro b
    rw [rstripWs_cons]
    by_cases hcs : rstripWs cs = []
    · rw [if_pos hcs]
      have hall : ∀ d ∈ cs, isWsC d = true := (rstripWs_eq_nil_iff cs).mp hcs
      by_cases hw : isWsC c = true
      · rw [if_pos hw]
        have hall2 : ∀ d ∈ c :: cs, isWsC d = true := by
          intro d hd
          rcases List.mem_cons.mp hd with rfl | h2
          · exact hw
          · exact hall d h2
        rw [collapseAux_allWs _ hall2 b]
        rfl
      · rw [if_neg hw]
        have hwf : isWsC c = false := Bool.not_eq_true _ ▸ Bool.eq_false_iff.mpr hw
        rw [collapseAux_cons, if_neg hw, collapseAux_cons, if_neg hw]
        rw [rstripWs_cons, rstripWs_cons]
        rw [show collapseAux false ([] : Str) = [] from rfl, collapseAux_allWs _ hall false]
        rfl
    · rw [if_neg hcs]
      by_cases hw : isWsC c = true
      · rw [collapseAux_cons, if_pos hw, collapseAux_cons, if_pos hw]
        cases b
        · simp only [Bool.false_eq_true, if_false]
          exact rstrip_cons_congr ' ' (ih true)
        · simp only [if_true]
          exact ih true
      · rw [collapseAux_cons, if_neg hw, collapseAux_cons, if_neg hw]
        exact rstrip_cons_congr c (ih false)

theorem strip_collapse_rstrip (x : Str) :
    stripWs (collapseWs (rstripWs x)) = stripWs (collapseWs x) :=
  congrArg lstripWs (rstrip_collapse_rstrip x false)

theorem mem_revSeq {a n : Nat} (h : a ∈ revSeq n) : 1 ≤ a ∧ a ≤ n := by
  induction n with
  | zero => simp [revSeq] at h
  | succ n ih =>
    rcases List.mem_cons.mp h with rfl | h2
    · omega
    · have := ih h2; omega

theorem mem_revSeq0 {a n : Nat} (h : a ∈ revSeq0 n) : a ≤ n := by
  induction n with
  | zero => simp [revSeq0] at h; omega
  | succ n ih =>
    rcases List.mem_cons.mp h with rfl | h2
    · omega
    · have := ih h2; omega

theorem firstSome_eq_some {α β : Type} {as : List α} {f : α → Option β} {b : β}
    (h : firstSome as f = some b) : ∃ a ∈ as, f a = some b := by
  induction as with
  | nil => simp [firstSome] at h
  | cons a as ih =>
    simp only [firstSome] at h
    cases hf : f a with
    | some b2 =>
      rw [hf] at h
      exact ⟨a, List.mem_cons_self a as, hf.trans h⟩
    | none =>
      rw [hf] at h
      obtain ⟨a2, ha2, hfa2⟩ := ih h
      exact ⟨a2, List.mem_cons_of_mem a ha2, hfa2⟩

theorem drop_length_takeWhile (p : Char → Bool) (l : Str) :
    l.drop (l.takeWhile p).length = l.dropWhile p := by
  induction l with
  | nil => rfl
  | cons c cs ih =>
    by_cases hc : p c = true
    · simp [List.takeWhile_cons, List.dropWhile_cons, hc, ih]
    · simp [List.takeWhile_cons, List.dropWhile_cons, hc]

theorem head?_dropWhile {p : Char → Bool} {l : Str} {c : Char}
    (h : (l.dropWhile p).head? = some c) : p c = false := by
  induction l with
  | nil => simp at h
  | cons a as ih =>
    rw [List.dropWhile_cons] at h
    by_cases ha : p a = true
    · rw [if_pos ha] at h; exact ih h
    · rw [if_neg ha] at h
      simp only [List.head?_cons, Option.some.injEq] at h
      rw [← h]
      exact Bool.not_eq_true _ ▸ Bool.eq_false_iff.mpr ha

theorem head?_take {l : Str} {n : Nat} (hn : 1 ≤ n) : (l.take n).head? = l.head? := by
  cases l with
  | nil => simp
  | cons c cs =>
    cases n with
    | zero => omega
    | succ m => simp

theorem getLast?_take {l : Str} {n : Nat} (h1 : 1 ≤ n) (h2 : n ≤ l.length) :
    (l.take n).getLast? = l[n - 1]? := by
  rw [List.getLast?_eq_getElem?, List.length_take]
  rw [Nat.min_eq_left h2]
  exact List.getElem?_take_of_lt (by omega)

theorem sgnLen_le (l : Str) : sgnLen l ≤ l.length := by
  cases l with
  | nil => simp [sgnLen]
  | cons c cs =>
    simp only [sgnLen, List.length_cons]
    split <;> omega

theorem groupsCount_le (l : Str) : 4 * groupsCount l ≤ l.length := by
  induction l using groupsCount.induct with
  | case1 a b c rest h ih =>
    simp only [groupsCount, if_pos h, List.length_cons]
    omega
  | case2 a b c rest h =>
    simp only [groupsCount, if_neg h, List.length_cons]
    omega
  | case3 t hx =>
    rw [groupsCount.eq_def]
    split
    · rename_i a b c rest
      exact absurd rfl (fun h2 => hx a b c rest h2)
    · omega

/-- Inversion for alternative A: a match consumes at least one character,
at most the whole string, and satisfies the trailing `(?![\d,])`. -/
theorem matchA_some {l : Str} {n : Nat} (h : matchA l = some n) :
    1 ≤ n ∧ n ≤ l.length ∧ lookaheadOK (l.drop n) = true := by
  simp only [matchA] at h
  obtain ⟨d, hd, h2⟩ := firstSome_eq_some h
  obtain ⟨hd1, hdle⟩ := mem_revSeq hd
  obtain ⟨g, hg, h3⟩ := firstSome_eq_some h2
  have hgle := mem_revSeq0 hg
  have hsg := sgnLen_le l
  have hl1 : (l.drop (sgnLen l)).length = l.length - sgnLen l := List.length_drop _ _
  have hrle : ((l.drop (sgnLen l)).takeWhile isDigitC).length ≤ (l.drop (sgnLen l)).length :=
    List.Sublist.length_le (List.takeWhile_sublist _)
  have hdle2 : d ≤ (l.drop (sgnLen l)).length := le_trans (le_trans hdle (min_le_right _ _)) hrle
  have hl2 : ((l.drop (sgnLen l)).drop d).length = l.length - sgnLen l - d := by
    rw [List.length_drop, hl1]
  have hgc := groupsCount_le ((l.drop (sgnLen l)).drop d)
  have h4g : 4 * g ≤ ((l.drop (sgnLen l)).drop d).length := le_trans (by omega) hgc
  have hl3eq : ((l.drop (sgnLen l)).drop d).drop (4 * g)
      = l.drop (sgnLen l + d + 4 * g) := by
    rw [List.drop_drop, List.drop_drop]
    ring_nf
  have hl3len : (l.drop (sgnLen l + d + 4 * g)).length = l.length - (sgnLen l + d + 4 * g) :=
    List.length_drop _ _
  rw [hl3eq] at h3
  split at h3
  case _ l4 heq =>
    -- decimal branch: the remainder starts with ','
    have hlen4 : l4.length + 1 = l.length - (sgnLen l + d + 4 * g) := by
      rw [← hl3len, heq]; simp
    split at h3
    case _ m hfs =>
      obtain ⟨j, hj, hJ⟩ := firstSome_eq_some hfs
      obtain ⟨hj1, hjle⟩ := mem_revSeq hj
      have hkle : (l4.takeWhile isDigitC).length ≤ l4.length :=
        List.Sublist.length_le (List.takeWhile_sublist _)
      split at hJ
      case _ hla =>
        simp only [Option.some.injEq] at hJ h3
        subst h3
        rw [← hJ]
        refine ⟨by omega, by omega, ?_⟩
        have : l.drop (sgnLen l + d + 4 * g + 1 + j) = l4.drop j := by
          have ht : l.drop (sgnLen l + d + 4 * g + 1) = l4 := by
            rw [← List.tail_drop, heq]; rfl
          rw [← ht, List.drop_drop]
        rw [this]
        exact hla
      case _ => exact absurd hJ (by simp)
    case _ hfs =>
      split at h3
      case _ hla =>
        simp only [Option.some.injEq] at h3
        subst h3
        exact ⟨by omega, by omega, hla⟩
      case _ => exact absurd h3 (by simp)
  case _ hne =>
    split at h3
    case _ hla =>
      simp only [Option.some.injEq] at h3
      subst h3
      exact ⟨by omega, by omega, hla⟩
    case _ => exact absurd h3 (by simp)

/-- Inversion for alternative B: a match consumes at least one character,
at most the whole string, and is followed by a non-digit (the final `\d+`
is greedy). -/
theorem matchB_some {l : Str} {n : Nat} (h : matchB l = some n) :
    1 ≤ n ∧ n ≤ l.length ∧ ∀ c, (l.drop n).head? = some c → isDigitC c = false := by
  simp only [matchB] at h
  split at h
  · exact absurd h (by simp)
  case _ hr =>
    split at h
    case _ l2 heq =>
      split at h
      · exact absurd h (by simp)
      case _ hk =>
        simp only [Option.some.injEq] at h
        subst h
        have hsg := sgnLen_le l
        have hl1 : (l.drop (sgnLen l)).length = l.length - sgnLen l := List.length_drop _ _
        have hrle : ((l.drop (sgnLen l)).takeWhile isDigitC).length
            ≤ (l.drop (sgnLen l)).length :=
          List.Sublist.length_le (List.takeWhile_sublist _)
        have heq2 : l.drop (sgnLen l + ((l.drop (sgnLen l)).takeWhile isDigitC).length)
            = ',' :: l2 := by
          rw [← List.drop_drop]
          exact heq
        have hlen2 := congrArg List.length heq2
        rw [List.length_drop, List.length_cons] at hlen2
        have hkle : (l2.takeWhile isDigitC).length ≤ l2.length :=
          List.Sublist.length_le (List.takeWhile_sublist _)
        have hr1 : 1 ≤ ((l.drop (sgnLen l)).takeWhile isDigitC).length :=
          Nat.one_le_iff_ne_zero.mpr hr
        have hk1 : 1 ≤ (l2.takeWhile isDigitC).length := Nat.one_le_iff_ne_zero.mpr hk
        refine ⟨by omega, by omega, ?_⟩
        intro c hc
        have hdrop : l.drop (sgnLen l + ((l.drop (sgnLen l)).takeWhile isDigitC).length + 1
            + (l2.takeWhile isDigitC).length) = l2.drop (l2.takeWhile isDigitC).length := by
          have ht : l.drop (sgnLen l + ((l.drop (sgnLen l)).takeWhile isDigitC).length + 1)
              = l2 := by
            rw [← List.tail_drop, heq2]
            rfl
          rw [← ht, List.drop_drop]
        rw [hdrop, drop_length_takeWhile] at hc
        exact head?_dropWhile hc
    case _ => exact absurd h (by simp)

theorem isDigitC_not_sign {c : Char} (h : isDigitC c = true) : ¬(c = '+' ∨ c = '-') := by
  rintro (rfl | rfl) <;> exact absurd h (by decide)

/-- Shifting a digit-started B-match across a preceding digit: when both
`c` and the head of `l` are digits, the second alternative matches `c :: l`
exactly when it matches `l` (one character longer), since the greedy `\d+`
absorbs the whole digit run either way. -/
theorem matchB_cons_digit {c : Char} {l : Str} (hc : isDigitC c = true)
    {d : Char} (hh : l.head? = some d) (hd : isDigitC d = true) :
    matchB (c :: l) = (matchB l).map (· + 1) := by
  have hsc : sgnLen (c :: l) = 0 := by
    simp only [sgnLen]
    rw [if_neg (isDigitC_not_sign hc)]
  obtain ⟨l', rfl⟩ : ∃ l', l = d :: l' := by
    cases l with
    | nil => simp at hh
    | cons x xs =>
      simp only [List.head?_cons, Option.some.injEq] at hh
      exact ⟨xs, by rw [hh]⟩
  have hsd : sgnLen (d :: l') = 0 := by
    simp only [sgnLen]
    rw [if_neg (isDigitC_not_sign hd)]
  simp only [matchB, hsc, hsd, List.drop_zero]
  rw [List.takeWhile_cons_of_pos hc, List.takeWhile_cons_of_pos hd]
  simp only [List.length_cons, List.drop_succ_cons]
  rw [if_neg (Nat.succ_ne_zero _), if_neg (Nat.succ_ne_zero _)]
  split
  case _ l2 heq =>
    by_cases hk : (l2.takeWhile isDigitC).length = 0
    · simp [hk]
    · simp only [if_neg hk, Option.map_some']
      exact congrArg some (by omega)
  case _ hne => rfl

/-- Invariant induction over the scan loop.  At every reached position,
`prev` is the character left of the cursor, and after a failed attempt the
second alternative cannot match a digit-started token at the next position
either (its greedy `\d+` would already have matched one character to the
left).  Every emitted token therefore satisfies: an A-token respects the
`(?<!\d)` lookbehind and the `(?![\d,])` lookahead; any token whose text
starts with a digit is not immediately preceded by a digit. -/
theorem scanAux_boundaries (s : Str) :
    ∀ (f pos : Nat) (prev : Option Char),
      (pos ≠ 0 → prev = s[pos - 1]?) →
      (prevDigit prev = true → ∀ c2, (s.drop pos).head? = some c2 → isDigitC c2 = true →
        matchB (s.drop pos) = none) →
      ∀ t ∈ scanAux f prev (s.drop pos) pos,
        (t.fromA = true →
          ((t.start = 0 ∨ ∀ c2, s[t.start - 1]? = some c2 → isDigitC c2 = false) ∧
           (∀ c2, s[t.start + t.len]? = some c2 → isDigitC c2 = false ∧ c2 ≠ ','))) ∧
        (∀ c0, t.text.head? = some c0 → isDigitC c0 = true →
          (t.start = 0 ∨ ∀ c2, s[t.start - 1]? = some c2 → isDigitC c2 = false)) := by
  intro f
  induction f with
  | zero =>
    intro pos prev _ _ t ht
    simp [scanAux] at ht
  | succ f ih =>
    intro pos prev hprev hB t ht
    simp only [scanAux] at ht
    cases hl : s.drop pos with
    | nil => rw [hl] at ht; simp at ht
    | cons c rest =>
      rw [hl] at ht
      have hheadc : (s.drop pos).head? = some c := by rw [hl]; rfl
      have hnotprec : prevDigit prev = false →
          (pos = 0 ∨ ∀ c2, s[pos - 1]? = some c2 → isDigitC c2 = false) := by
        intro hpd
        by_cases hp0 : pos = 0
        · exact Or.inl hp0
        · refine Or.inr fun c2 hc2 => ?_
          rw [hprev hp0, hc2] at hpd
          simpa [prevDigit] using hpd
      cases hA : (if prevDigit prev then none else matchA (c :: rest)) with
      | some n =>
        have hpd : prevDigit prev = false := by
          by_cases hx : prevDigit prev = true
          · rw [if_pos hx] at hA; cases hA
          · exact Bool.not_eq_true _ ▸ Bool.eq_false_iff.mpr hx
        have hmA : matchA (c :: rest) = some n := by
          rwa [if_neg (by simp [hpd])] at hA
        obtain ⟨hn1, hnle, hla⟩ := matchA_some hmA
        have hdropeq : s.drop (pos + n) = (c :: rest).drop n := by
          rw [← List.drop_drop, hl]
        rw [hA] at ht
        rcases List.mem_cons.mp ht with rfl | hrec
        · have hend : ∀ c2, s[pos + n]? = some c2 → isDigitC c2 = false ∧ c2 ≠ ',' := by
            intro c2 hc2
            have hhead : ((c :: rest).drop n).head? = some c2 := by
              rw [← hdropeq, List.head?_eq_getElem?, List.getElem?_drop,
                Nat.add_zero]
              exact hc2
            cases hd2 : (c :: rest).drop n with
            | nil => rw [hd2] at hhead; cases hhead
            | cons e tl =>
              rw [hd2] at hhead hla
              simp only [List.head?_cons, Option.some.injEq] at hhead
              subst hhead
              simp only [lookaheadOK, Bool.not_eq_true', Bool.or_eq_false_iff] at hla
              exact ⟨hla.1, by simpa using hla.2⟩
          exact ⟨fun _ => ⟨hnotprec hpd, hend⟩, fun c0 _ _ => hnotprec hpd⟩
        · refine ih (pos + n) (((c :: rest).take n).getLast?) ?_ ?_ t ?_
          · intro _
            rw [getLast?_take hn1 (by simpa using hnle)]
            rw [show (c :: rest)[n - 1]? = (s.drop pos)[n - 1]? by rw [hl]]
            rw [List.getElem?_drop]
            congr 1
            omega
          · intro hpd2 c2 hc2 hdig2
            exfalso
            rw [hdropeq] at hc2
            cases hd2 : (c :: rest).drop n with
            | nil => rw [hd2] at hc2; cases hc2
            | cons e tl =>
              rw [hd2] at hc2 hla
              simp only [List.head?_cons, Option.some.injEq] at hc2
              subst hc2
              simp only [lookaheadOK, Bool.not_eq_true', Bool.or_eq_false_iff] at hla
              rw [hla.1] at hdig2
              cases hdig2
          · rw [hdropeq]
            exact hrec
      | none =>
        rw [hA] at ht
        cases hBm : matchB (c :: rest) with
        | some n =>
          rw [hBm] at ht
          obtain ⟨hn1, hnle, hafter⟩ := matchB_some hBm
          have hdropeq : s.drop (pos + n) = (c :: rest).drop n := by
            rw [← List.drop_drop, hl]
          rcases List.mem_cons.mp ht with rfl | hrec
          · refine ⟨fun hfa => absurd hfa (by simp), fun c0 hhead hdig => ?_⟩
            have hc0 : c0 = c := by
              rw [head?_take hn1] at hhead
              simp only [List.head?_cons, Option.some.injEq] at hhead
              exact hhead.symm
            subst hc0
            by_cases hpd : prevDigit prev = true
            · exfalso
              have hnone := hB hpd c0 hheadc hdig
              rw [hl] at hnone
              rw [hnone] at hBm
              cases hBm
            · exact hnotprec (Bool.not_eq_true _ ▸ Bool.eq_false_iff.mpr hpd)
          · refine ih (pos + n) (((c :: rest).take n).getLast?) ?_ ?_ t ?_
            · intro _
              rw [getLast?_take hn1 (by simpa using hnle)]
              rw [show (c :: rest)[n - 1]? = (s.drop pos)[n - 1]? by rw [hl]]
              rw [List.getElem?_drop]
              congr 1
              omega
            · intro hpd2 c2 hc2 hdig2
              exfalso
              rw [hdropeq] at hc2
              rw [hafter c2 hc2] at hdig2
              cases hdig2
            · rw [hdropeq]
              exact hrec
        | none =>
          rw [hBm] at ht
          have hrest : s.drop (pos + 1) = rest := by
            rw [← List.tail_drop, hl]
            rfl
          refine ih (pos + 1) (some c) ?_ ?_ t ?_
          · intro _
            rw [Nat.add_sub_cancel]
            rw [← Nat.add_zero pos, ← List.getElem?_drop, hl]
            simp
          · intro hcd c2 hc2 hdig2
            rw [hrest] at hc2 ⊢
            have hshift := matchB_cons_digit (by simpa [prevDigit] using hcd) hc2 hdig2
            rw [hBm] at hshift
            cases hmr : matchB rest with
            | none => rfl
            | some m => rw [hmr] at hshift; cases hshift
          · rw [hrest]
            exact ht

theorem specValidAmount_head (s : Str) (h : specValidAmount s) :
    ∃ c rest, s = c :: rest ∧ (c = '+' ∨ c = '-' ∨ isDigitC c = true) := by
  rcases h with ⟨sg, d, gs, dec, hsg, hd1, _, hddig, _, _, hs⟩ |
    ⟨sg, d1, d2, hsg, hne, _, hdig, _, hs⟩
  · rcases hsg with rfl | rfl | rfl
    · cases d with
      | nil => simp at hd1
      | cons c d' =>
        exact ⟨c, d' ++ (gs.map fun g => '.' :: g).flatten ++ dec, by simpa using hs,
          Or.inr (Or.inr (hddig c (List.mem_cons_self c d')))⟩
    · exact ⟨'+', d ++ (gs.map fun g => '.' :: g).flatten ++ dec, by simpa using hs, Or.inl rfl⟩
    · exact ⟨'-', d ++ (gs.map fun g => '.' :: g).flatten ++ dec, by simpa using hs,
        Or.inr (Or.inl rfl)⟩
  · rcases hsg with rfl | rfl | rfl
    · cases d1 with
      | nil => exact absurd rfl hne
      | cons c d' =>
        exact ⟨c, d' ++ ',' :: d2, by simpa using hs,
          Or.inr (Or.inr (hdig c (List.mem_cons_self c d')))⟩
    · exact ⟨'+', d1 ++ ',' :: d2, by simpa using hs, Or.inl rfl⟩
    · exact ⟨'-', d1 ++ ',' :: d2, by simpa using hs, Or.inr (Or.inl rfl)⟩

/-! ## Membership utilities for the record invariants -/

theorem rstripWs_sublist (l : Str) : List.Sublist (rstripWs l) l := by
  induction l with
  | nil => exact List.Sublist.refl _
  | cons c cs ih =>
    rw [rstripWs_cons]
    by_cases h : rstripWs cs = []
    · rw [if_pos h]
      by_cases hw : isWsC c = true
      · rw [if_pos hw]; exact List.nil_sublist _
      · rw [if_neg hw]
        exact (List.singleton_sublist.mpr (List.mem_cons_self c cs))
    · rw [if_neg h]
      exact List.Sublist.cons₂ c ih

theorem mem_stripWs {c : Char} {l : Str} (h : c ∈ stripWs l) : c ∈ l :=
  (rstripWs_sublist l).subset ((List.dropWhile_suffix isWsC).subset h)

theorem mem_rstrip_or_ws {c : Char} {l : Str} (h : c ∈ l) :
    c ∈ rstripWs l ∨ isWsC c = true := by
  induction l with
  | nil => cases h
  | cons a as ih =>
    rw [rstripWs_cons]
    by_cases hcs : rstripWs as = []
    · rw [if_pos hcs]
      have hall := (rstripWs_eq_nil_iff as).mp hcs
      rcases List.mem_cons.mp h with rfl | h2
      · by_cases hw : isWsC c = true
        · exact Or.inr hw
        · rw [if_neg hw]; exact Or.inl (List.mem_cons_self c [])
      · exact Or.inr (hall c h2)
    · rw [if_neg hcs]
      rcases List.mem_cons.mp h with rfl | h2
      · exact Or.inl (List.mem_cons_self c _)
      · rcases ih h2 with h3 | h3
        · exact Or.inl (List.mem_cons_of_mem a h3)
        · exact Or.inr h3

/-- A string containing a non-whitespace character is neither empty nor
whitespace-only. -/
theorem stripWs_ne_nil_of_mem {c : Char} {l : Str} (hm : c ∈ l) (hw : isWsC c = false) :
    stripWs l ≠ [] := by
  intro heq
  have hall := List.dropWhile_eq_nil_iff.mp heq
  rcases mem_rstrip_or_ws hm with h2 | h2
  · rw [hall c h2] at hw; cases hw
  · rw [h2] at hw; cases hw

theorem stripWs_stripWs_ne_nil {v : Str} (h : stripWs v ≠ []) :
    stripWs (stripWs v) ≠ [] := by
  cases hsv : stripWs v with
  | nil => exact absurd hsv h
  | cons c t =>
    have hcw : isWsC c = false := by
      have : (stripWs v).head? = some c := by rw [hsv]; rfl
      exact head?_dropWhile this
    exact stripWs_ne_nil_of_mem (List.mem_cons_self c t) hcw

theorem mem_dropWhile_of_not {p : Char → Bool} {c : Char} {l : Str}
    (hm : c ∈ l) (hp : p c = false) : c ∈ l.dropWhile p := by
  induction l with
  | nil => cases hm
  | cons a as ih =>
    rw [List.dropWhile_cons]
    by_cases ha : p a = true
    · rw [if_pos ha]
      rcases List.mem_cons.mp hm with rfl | h2
      · rw [ha] at hp; cases hp
      · exact ih h2
    · rw [if_neg ha]
      exact hm

theorem mem_stripPipes {c : Char} {l : Str}
    (hm : c ∈ l) (hp : (c == ' ' || c == '|') = false) : c ∈ stripPipes l := by
  unfold stripPipes
  rw [List.mem_reverse]
  exact mem_dropWhile_of_not (List.mem_reverse.mpr (mem_dropWhile_of_not hm hp)) hp

theorem mem_joinSep_of_mem {sep : Str} {xs : List Str} {x : Str} {c : Char}
    (hx : x ∈ xs) (hc : c ∈ x) : c ∈ joinSep sep xs := by
  induction xs with
  | nil => cases hx
  | cons a as ih =>
    cases as with
    | nil =>
      rcases List.mem_cons.mp hx with rfl | h2
      · exact hc
      · cases h2
    | cons b bs =>
      show c ∈ a ++ sep ++ joinSep sep (b :: bs)
      rcases List.mem_cons.mp hx with rfl | h2
      · exact List.mem_append_left _ (List.mem_append_left _ hc)
      · exact List.mem_append_right _ (ih h2)

theorem mem_of_mem_joinSep {sep : Str} {xs : List Str} {c : Char}
    (h : c ∈ joinSep sep xs) : (∃ x ∈ xs, c ∈ x) ∨ c ∈ sep := by
  induction xs with
  | nil => cases h
  | cons a as ih =>
    cases as with
    | nil => exact Or.inl ⟨a, List.mem_cons_self a [], h⟩
    | cons b bs =>
      rcases List.mem_append.mp h with h2 | h2
      · rcases List.mem_append.mp h2 with h3 | h3
        · exact Or.inl ⟨a, List.mem_cons_self a _, h3⟩
        · exact Or.inr h3
      · rcases ih h2 with ⟨x, hx, hcx⟩ | h3
        · exact Or.inl ⟨x, List.mem_cons_of_mem a hx, hcx⟩
        · exact Or.inr h3

theorem upperChar_of_ws {c : Char} (h : isWsC c = true) : upperChar c = c := by
  simp only [isWsC, Bool.or_eq_true, beq_iff_eq] at h
  rcases h with ((((rfl | rfl) | rfl) | rfl) | rfl) | rfl <;> decide

theorem isDigitC_not_ws {c : Char} (h : isDigitC c = true) : isWsC c = false := by
  by_contra hw
  have hw2 : isWsC c = true := by simpa using hw
  simp only [isWsC, Bool.or_eq_true, beq_iff_eq] at hw2
  rcases hw2 with ((((rfl | rfl) | rfl) | rfl) | rfl) | rfl <;> exact absurd h (by decide)

theorem matchA_digit {l : Str} {n : Nat} (h : matchA l = some n) :
    ∃ c ∈ l, isDigitC c = true := by
  simp only [matchA] at h
  obtain ⟨d, hd, _⟩ := firstSome_eq_some h
  obtain ⟨hd1, hdle⟩ := mem_revSeq hd
  have hr : 1 ≤ ((l.drop (sgnLen l)).takeWhile isDigitC).length := by
    have h2 := le_trans hd1 hdle
    have h3 := min_le_right 3 ((l.drop (sgnLen l)).takeWhile isDigitC).length
    omega
  cases htw : (l.drop (sgnLen l)).takeWhile isDigitC with
  | nil => rw [htw] at hr; simp at hr
  | cons c cs =>
    have hcd : isDigitC c = true :=
      List.mem_takeWhile_imp (htw ▸ List.mem_cons_self c cs)
    have hcm : c ∈ l.drop (sgnLen l) :=
      (List.takeWhile_sublist _).subset (htw ▸ List.mem_cons_self c cs)
    exact ⟨c, (List.drop_sublist _ _).subset hcm, hcd⟩

theorem matchB_digit {l : Str} {n : Nat} (h : matchB l = some n) :
    ∃ c ∈ l, isDigitC c = true := by
  simp only [matchB] at h
  split at h
  · exact absurd h (by simp)
  case _ hrne =>
    cases htw : (l.drop (sgnLen l)).takeWhile isDigitC with
    | nil => rw [htw] at hrne; simp at hrne
    | cons c cs =>
      have hcd : isDigitC c = true :=
        List.mem_takeWhile_imp (htw ▸ List.mem_cons_self c cs)
      have hcm : c ∈ l.drop (sgnLen l) :=
        (List.takeWhile_sublist _).subset (htw ▸ List.mem_cons_self c cs)
      exact ⟨c, (List.drop_sublist _ _).subset hcm, hcd⟩

theorem scanAux_digit {f : Nat} : ∀ {prev : Option Char} {l : Str} {pos : Nat} {t : Tok},
    t ∈ scanAux f prev l pos → ∃ c ∈ l, isDigitC c = true := by
  induction f with
  | zero =>
    intro prev l pos t ht
    simp [scanAux] at ht
  | succ f ih =>
    intro prev l pos t ht
    simp only [scanAux] at ht
    cases l with
    | nil => simp at ht
    | cons c rest =>
      cases hA : (if prevDigit prev then none else matchA (c :: rest)) with
      | some n =>
        have hmA : matchA (c :: rest) = some n := by
          by_cases hx : prevDigit prev = true
          · rw [if_pos hx] at hA; cases hA
          · rwa [if_neg hx] at hA
        exact matchA_digit hmA
      | none =>
        rw [hA] at ht
        cases hB : matchB (c :: rest) with
        | some n => exact matchB_digit hB
        | none =>
          rw [hB] at ht
          obtain ⟨c2, hc2, hd2⟩ := ih ht
          exact ⟨c2, List.mem_cons_of_mem c hc2, hd2⟩

/-- A data row that parses at least one numeric token has an original line
(`joined.strip(" |")`) that is neither empty nor whitespace-only: the
token's digit survives both the pipe-stripping and any whitespace test. -/
theorem rowJoined_strip_ne_nil {r : TRow} (hne : findall (rowDataResto r).2 ≠ []) :
    stripWs (stripPipes (rowJoined r)) ≠ [] := by
  obtain ⟨tok, htok⟩ : ∃ tok, tok ∈ scanTokens (rowDataResto r).2 := by
    cases hsc : scanTokens (rowDataResto r).2 with
    | nil => rw [findall, hsc] at hne; simp at hne
    | cons a as => exact ⟨a, hsc ▸ List.mem_cons_self a as⟩
  obtain ⟨c, hcm, hcd⟩ := scanAux_digit htok
  have hcflat : c ∈ rowFlat r := by
    simp only [rowDataResto] at hcm
    split at hcm
    · exact (List.drop_sublist _ _).subset (mem_stripWs hcm)
    · exact hcm
  have hc1 : c ≠ ' ' := fun hh => by rw [hh] at hcd; exact absurd hcd (by decide)
  have hc2 : c ≠ '|' := fun hh => by rw [hh] at hcd; exact absurd hcd (by decide)
  obtain ⟨cell, hcell, hccell⟩ : ∃ x ∈ rowCells r, c ∈ x := by
    rcases mem_of_mem_joinSep hcflat with h | h
    · exact h
    · simp only [List.mem_singleton] at h
      exact absurd h hc1
  have hcsp : c ∈ stripPipes (rowJoined r) :=
    mem_stripPipes (mem_joinSep_of_mem hcell hccell) (by simp [hc1, hc2])
  exact stripWs_ne_nil_of_mem hcsp (isDigitC_not_ws hcd)

/-- A `SALDO ANTERIOR` row's original line (`joined`) is neither empty nor
whitespace-only: the marker's letters come from the cells. -/
theorem rowJoined_sa_ne_nil {r : TRow}
    (hsa : containsSub (rowJoinedUpper r) (strL "SALDO ANTERIOR") = true) :
    stripWs (rowJoined r) ≠ [] := by
  obtain ⟨t, ht, hpre⟩ := List.any_eq_true.mp hsa
  have hS : 'S' ∈ rowJoinedUpper r :=
    ((List.mem_tails t _).mp ht).mem
      ((List.isPrefixOf_iff_prefix.mp hpre).mem (by decide))
  obtain ⟨c, hcm, hcu⟩ := List.mem_map.mp hS
  have hcw : isWsC c = false := by
    by_contra hw
    have hw2 : isWsC c = true := by simpa using hw
    rw [upperChar_of_ws hw2] at hcu
    rw [hcu] at hw2
    exact absurd hw2 (by decide)
  obtain ⟨cell, hcell, hccell⟩ : ∃ x ∈ rowCells r, c ∈ x := by
    rcases mem_of_mem_joinSep hcm with h | h
    · exact h
    · simp only [List.mem_singleton] at h
      rw [h] at hcw
      exact absurd hcw (by decide)
  exact stripWs_ne_nil_of_mem (mem_joinSep_of_mem hcell hccell) hcw

theorem stepRow_orig {saldo : Option PyFloat} {r : TRow} {rec : Rec}
    (h : rec ∈ (stepRow saldo r).2) : stripWs rec.linha_original ≠ [] := by
  simp only [stepRow] at h
  split at h
  · simp at h
  split at h
  · simp at h
  split at h
  · simp at h
  split at h
  case _ hsa =>
    split at h
    case _ n heq =>
      simp only [List.mem_singleton] at h
      rw [h]
      exact rowJoined_sa_ne_nil hsa
    case _ => simp at h
  case _ hsa =>
    split at h
    case _ s2 s1 rest2 heq =>
      have hne : findall (rowDataResto r).2 ≠ [] := by
        intro h0
        rw [h0] at heq
        simp at heq
      simp only [emitRow, List.mem_singleton] at h
      rw [h]
      exact rowJoined_strip_ne_nil hne
    case _ s1 heq =>
      have hne : findall (rowDataResto r).2 ≠ [] := by
        intro h0
        rw [h0] at heq
        simp at heq
      simp only [emitRow, List.mem_singleton] at h
      rw [h]
      exact rowJoined_strip_ne_nil hne
    case _ heq => simp at h

theorem process_rows_orig {rows : List TRow} : ∀ {saldo : Option PyFloat} {rec : Rec},
    rec ∈ (process_rows saldo rows).2 → stripWs rec.linha_original ≠ [] := by
  induction rows with
  | nil =>
    intro saldo rec h
    simp [process_rows] at h
  | cons r rs ih =>
    intro saldo rec h
    simp only [process_rows] at h
    rcases List.mem_append.mp h with h2 | h2
    · exact stepRow_orig h2
    · exact ih h2

theorem stepRow_le_one (saldo : Option PyFloat) (r : TRow) :
    (stepRow saldo r).2.length ≤ 1 := by
  simp only [stepRow, emitRow]
  repeat' split
  all_goals simp

theorem process_rows_le (rows : List TRow) : ∀ saldo : Option PyFloat,
    (process_rows saldo rows).2.length ≤ rows.length := by
  induction rows with
  | nil =>
    intro saldo
    simp [process_rows]
  | cons r rs ih =>
    intro saldo
    simp only [process_rows, List.length_append, List.length_cons]
    have h1 := stepRow_le_one saldo r
    have h2 := ih (stepRow saldo r).1
    omega

/-! ## Towards C6: evaluating the matchers on grammar-valid strings -/

theorem firstSome_cons_some {α β : Type} {a : α} {as : List α} {f : α → Option β} {b : β}
    (h : f a = some b) : firstSome (a :: as) f = some b := by
  simp [firstSome, h]

theorem firstSome_all_none {α β : Type} {as : List α} {f : α → Option β}
    (h : ∀ a ∈ as, f a = none) : firstSome as f = none := by
  induction as with
  | nil => rfl
  | cons a as ih =>
    simp only [firstSome]
    rw [h a (List.mem_cons_self a as)]
    exact ih fun a2 ha2 => h a2 (List.mem_cons_of_mem a ha2)

theorem takeWhile_head_neg {p : Char → Bool} {l : Str}
    (h : ∀ c, l.head? = some c → p c = false) : l.takeWhile p = [] := by
  cases l with
  | nil => rfl
  | cons c cs =>
    rw [List.takeWhile_cons, if_neg]
    simp [h c rfl]

theorem sgnLen_cons_digit {c : Char} {l : Str} (h : isDigitC c = true) :
    sgnLen (c :: l) = 0 := by
  simp only [sgnLen]
  rw [if_neg (isDigitC_not_sign h)]

theorem isDigitC_ne_dot {c : Char} (h : isDigitC c = true) : c ≠ '.' := by
  intro rfl2
  subst rfl2
  exact absurd h (by decide)

theorem isDigitC_ne_comma {c : Char} (h : isDigitC c = true) : c ≠ ',' := by
  intro rfl2
  subst rfl2
  exact absurd h (by decide)

theorem groupsCount_head_ne_dot {l : Str} (h : ∀ c, l.head? = some c → c ≠ '.') :
    groupsCount l = 0 := by
  rw [groupsCount.eq_def]
  split
  case _ a b c rest => exact absurd rfl (h '.' rfl)
  case _ => rfl

theorem flatten_groups_length (gs : List Str) (h : ∀ g ∈ gs, g.length = 3) :
    ((gs.map fun g => '.' :: g).flatten).length = 4 * gs.length := by
  induction gs with
  | nil => rfl
  | cons g gs ih =>
    simp only [List.map_cons, List.flatten_cons, List.length_append, List.length_cons,
      List.length_cons, h g (List.mem_cons_self g gs),
      ih fun g2 hg2 => h g2 (List.mem_cons_of_mem g hg2)]
    omega

theorem groupsCount_groups (gs : List Str) (dec : Str)
    (hgs : ∀ g ∈ gs, g.length = 3 ∧ ∀ c ∈ g, isDigitC c = true)
    (hdec : ∀ c, dec.head? = some c → c ≠ '.') :
    groupsCount ((gs.map fun g => '.' :: g).flatten ++ dec) = gs.length := by
  induction gs with
  | nil => simpa using groupsCount_head_ne_dot hdec
  | cons g gs ih =>
    have hg3 := (hgs g (List.mem_cons_self g gs)).1
    have hd := (hgs g (List.mem_cons_self g gs)).2
    have hrest : ∀ g2 ∈ gs, g2.length = 3 ∧ ∀ c2 ∈ g2, isDigitC c2 = true :=
      fun g2 hg2 => hgs g2 (List.mem_cons_of_mem g hg2)
    obtain ⟨a, b, c, rfl⟩ := List.length_eq_three.mp hg3
    show groupsCount
        ('.' :: a :: b :: c :: ((gs.map fun g => '.' :: g).flatten ++ dec)) = gs.length + 1
    rw [groupsCount]
    rw [if_pos (by rw [hd a (by simp), hd b (by simp), hd c (by simp)]; rfl)]
    rw [ih hrest]

theorem revSeq0_cons (n : Nat) : ∃ tl, revSeq0 n = n :: tl := by
  cases n with
  | zero => exact ⟨[], rfl⟩
  | succ m => exact ⟨revSeq0 m, rfl⟩

theorem scanAux_nil (f : Nat) (prev : Option Char) (pos : Nat) :
    scanAux f prev [] pos = [] := by
  cases f <;> rfl

/-- Alternative A consumes a whole grammar-shaped string: optional sign,
1–3 digits `d`, a group block `J` (with `groupsCount (J ++ dec) = gn` and
`J.length = 4 * gn`), and an optional decimal part. -/
theorem matchA_canonical (sg d J dec : Str) (gn : Nat)
    (hsg : signOpt sg) (hd1 : 1 ≤ d.length) (hd3 : d.length ≤ 3)
    (hdd : ∀ c ∈ d, isDigitC c = true)
    (hgc : groupsCount (J ++ dec) = gn) (hJlen : J.length = 4 * gn)
    (hJhead : ∀ c, (J ++ dec).head? = some c → isDigitC c = false)
    (hdec : dec = [] ∨ ∃ ds, dec = ',' :: ds ∧ ds ≠ [] ∧ ∀ c ∈ ds, isDigitC c = true) :
    matchA (sg ++ (d ++ (J ++ dec))) = some (sg ++ (d ++ (J ++ dec))).length := by
  obtain ⟨m, hm⟩ : ∃ m, d.length = m + 1 := ⟨d.length - 1, by omega⟩
  have hsgn : sgnLen (sg ++ (d ++ (J ++ dec))) = sg.length := by
    rcases hsg with rfl | rfl | rfl
    · cases d with
      | nil => simp at hd1
      | cons c d' =>
        simp only [List.nil_append, List.cons_append]
        exact sgnLen_cons_digit (hdd c (List.mem_cons_self c d'))
    · simp [sgnLen]
    · simp [sgnLen]
  have hlen : (sg ++ (d ++ (J ++ dec))).length
      = sg.length + (m + 1) + J.length + dec.length := by
    simp only [List.length_append]
    omega
  have htw : ((d ++ (J ++ dec)).takeWhile isDigitC) = d := by
    rw [List.takeWhile_append_of_pos hdd, takeWhile_head_neg hJhead, List.append_nil]
  simp only [matchA]
  rw [hsgn, List.drop_left, htw, hm]
  rw [Nat.min_eq_right (by omega : m + 1 ≤ 3)]
  rw [show revSeq (m + 1) = (m + 1) :: revSeq m from rfl]
  refine firstSome_cons_some ?_
  dsimp only
  rw [show (d ++ (J ++ dec)).drop (m + 1) = J ++ dec from by
    rw [← hm]; exact List.drop_left _ _]
  rw [hgc]
  obtain ⟨tl, htl⟩ := revSeq0_cons gn
  rw [htl]
  refine firstSome_cons_some ?_
  dsimp only
  rw [show (J ++ dec).drop (4 * gn) = dec from by rw [← hJlen]; exact List.drop_left _ _]
  rcases hdec with rfl | ⟨ds, rfl, hne, hdsd⟩
  · simp only [lookaheadOK, if_true, Option.some.injEq]
    rw [hlen]
    simp only [List.length_nil]
    omega
  · split
    case _ l4 heq =>
      rw [show l4 = ds from by injection heq with h1 h2; exact h2.symm]
      rw [List.takeWhile_eq_self_iff.mpr hdsd]
      obtain ⟨km, hkm⟩ : ∃ km, ds.length = km + 1 :=
        ⟨ds.length - 1, by have := List.length_pos.mpr hne; omega⟩
      rw [hkm, show revSeq (km + 1) = (km + 1) :: revSeq km from rfl]
      have hdrop : ds.drop (km + 1) = [] := by rw [← hkm]; exact List.drop_length ds
      simp only [firstSome]
      rw [hdrop]
      simp only [lookaheadOK, if_true, Option.some.injEq]
      rw [hlen]
      simp only [List.length_cons]
      omega
    case _ hno => exact absurd rfl (fun h2 => hno ds h2)

/-- Alternative B consumes a whole `sign? digits , digits` string. -/
theorem matchB_canonical (sg d1 d2 : Str)
    (hsg : signOpt sg) (hne1 : d1 ≠ []) (hne2 : d2 ≠ [])
    (hd1 : ∀ c ∈ d1, isDigitC c = true) (hd2 : ∀ c ∈ d2, isDigitC c = true) :
    matchB (sg ++ (d1 ++ ',' :: d2)) = some (sg ++ (d1 ++ ',' :: d2)).length := by
  have hsgn : sgnLen (sg ++ (d1 ++ ',' :: d2)) = sg.length := by
    rcases hsg with rfl | rfl | rfl
    · cases d1 with
      | nil => exact absurd rfl hne1
      | cons c d' =>
        simp only [List.nil_append, List.cons_append]
        exact sgnLen_cons_digit (hd1 c (List.mem_cons_self c d'))
    · simp [sgnLen]
    · simp [sgnLen]
  have htw : ((d1 ++ ',' :: d2).takeWhile isDigitC) = d1 := by
    rw [List.takeWhile_append_of_pos hd1]
    rw [takeWhile_head_neg (fun c hc => by
      simp only [List.head?_cons, Option.some.injEq] at hc
      rw [← hc]
      decide), List.append_nil]
  simp only [matchB]
  rw [hsgn, List.drop_left, htw]
  rw [if_neg (by simp [hne1])]
  rw [show (d1 ++ ',' :: d2).drop d1.length = ',' :: d2 from List.drop_left _ _]
  split
  case _ l2 heq =>
    rw [show l2 = d2 from by injection heq with h1 h2; exact h2.symm]
    rw [List.takeWhile_eq_self_iff.mpr hd2]
    rw [if_neg (by simp [hne2])]
    simp only [Option.some.injEq, List.length_append, List.length_cons]
    omega
  case _ hno => exact absurd rfl (fun h2 => hno d2 h2)

/-- With four or more leading digits before the comma, alternative A fails
everywhere at the head: every 1–3 digit prefix it tries is followed by a
further digit, which the `(?![\d,])` lookahead rejects. -/
theorem matchA_none_long (sg d1 d2 : Str)
    (hsg : signOpt sg) (h4 : 4 ≤ d1.length)
    (hd1 : ∀ c ∈ d1, isDigitC c = true) :
    matchA (sg ++ (d1 ++ ',' :: d2)) = none := by
  have hne1 : d1 ≠ [] := by
    intro h2
    rw [h2] at h4
    simp at h4
  have hsgn : sgnLen (sg ++ (d1 ++ ',' :: d2)) = sg.length := by
    rcases hsg with rfl | rfl | rfl
    · cases d1 with
      | nil => exact absurd rfl hne1
      | cons c d' =>
        simp only [List.nil_append, List.cons_append]
        exact sgnLen_cons_digit (hd1 c (List.mem_cons_self c d'))
    · simp [sgnLen]
    · simp [sgnLen]
  have htw : ((d1 ++ ',' :: d2).takeWhile isDigitC) = d1 := by
    rw [List.takeWhile_append_of_pos hd1]
    rw [takeWhile_head_neg (fun c hc => by
      simp only [List.head?_cons, Option.some.injEq] at hc
      rw [← hc]
      decide), List.append_nil]
  simp only [matchA]
  rw [hsgn, List.drop_left, htw]
  rw [Nat.min_eq_left (by omega : 3 ≤ d1.length)]
  rw [show revSeq 3 = [3, 2, 1] from rfl]
  apply firstSome_all_none
  intro dc hdc
  have hdc3 : 1 ≤ dc ∧ dc ≤ 3 := by
    simp only [List.mem_cons, List.not_mem_nil, or_false] at hdc
    rcases hdc with rfl | rfl | rfl <;> omega
  have hlt : dc < d1.length := by omega
  obtain ⟨e, he, hedig⟩ :
      ∃ e, ((d1 ++ ',' :: d2).drop dc).head? = some e ∧ isDigitC e = true := by
    refine ⟨d1[dc], ?_, hd1 _ (List.getElem_mem hlt)⟩
    rw [List.head?_eq_getElem?, List.getElem?_drop, Nat.add_zero,
      List.getElem?_append_left hlt, List.getElem?_eq_getElem hlt]
  obtain ⟨tl2, htl2⟩ : ∃ tl2, (d1 ++ ',' :: d2).drop dc = e :: tl2 := by
    cases hdd : (d1 ++ ',' :: d2).drop dc with
    | nil => rw [hdd] at he; cases he
    | cons x xs =>
      rw [hdd] at he
      simp only [List.head?_cons, Option.some.injEq] at he
      rw [he]
      exact ⟨xs, rfl⟩
  rw [htl2]
  rw [groupsCount_head_ne_dot (fun c hc => by
    rw [show c = e from Eq.symm (by simpa using hc)]
    exact isDigitC_ne_dot hedig)]
  rw [show revSeq0 0 = [0] from rfl]
  apply firstSome_all_none
  intro g hg
  rw [show g = 0 from by simpa using hg]
  split
  case _ l4 heq =>
    injection heq with h1 h2
    rw [h1] at hedig
    exact absurd hedig (by decide)
  case _ hno =>
    rw [if_neg]
    simp [lookaheadOK, hedig]

/-- The scan loop on a string fully consumed by the first attempted match:
exactly one token, spanning everything. -/
theorem scan_single_full (s : Str) (hs : 1 ≤ s.length)
    (hor : matchA s = some s.length ∨ (matchA s = none ∧ matchB s = some s.length)) :
    (scanTokens s).map (fun t => (t.start, t.len)) = [(0, s.length)] := by
  cases s with
  | nil => simp at hs
  | cons c rest =>
    show (scanAux ((c :: rest).length + 1) none (c :: rest) 0).map _ = _
    rcases hor with hA | ⟨hA, hB⟩
    · simp only [scanAux, prevDigit, Bool.false_eq_true, if_false, hA]
      simp [List.drop_succ_cons, List.drop_length, scanAux_nil]
    · simp only [scanAux, prevDigit, Bool.false_eq_true, if_false, hA, hB]
      simp [List.drop_succ_cons, List.drop_length, scanAux_nil]

/-! ## Claim C8: record invariants of the four emitters -/

/-- C8: on every path (text lines, CSV free-text column, PDF text mode,
PDF table mode) each emitted record's `original_line` is neither empty nor
whitespace-only, and records correspond one-to-one to source units: the
line paths are filtered per-line maps (at most their input's length) and a
table row emits at most one record, so a whole table pass emits at most
one record per row. -/
theorem records_wellformed :
    (∀ lines rec, rec ∈ process_txt lines → stripWs rec.linha_original ≠ []) ∧
    (∀ vals rec, rec ∈ process_csv vals → stripWs rec.linha_original ≠ []) ∧
    (∀ lines ka rd mn ca rec, rec ∈ process_pdf_text lines ka rd mn ca →
      stripWs rec.linha_original ≠ []) ∧
    (∀ saldo rows rec, rec ∈ (process_rows saldo rows).2 →
      stripWs rec.linha_original ≠ []) ∧
    (∀ lines, (process_txt lines).length ≤ lines.length) ∧
    (∀ vals, (process_csv vals).length ≤ vals.length) ∧
    (∀ lines ka rd mn ca, (process_pdf_text lines ka rd mn ca).length ≤ lines.length) ∧
    (∀ saldo r, (stepRow saldo r).2.length ≤ 1) ∧
    (∀ saldo rows, (process_rows saldo rows).2.length ≤ rows.length) := by
  refine ⟨?_, ?_, ?_, ?_, ?_, ?_, ?_, ?_, ?_⟩
  · intro lines rec h
    obtain ⟨line, _, hf⟩ := List.mem_filterMap.mp h
    split at hf
    · cases hf
    case _ hg =>
      simp only [Option.some.injEq] at hf
      rw [← hf]
      show stripWs line ≠ []
      intro h0
      exact hg (by rw [h0]; rfl)
  · intro vals rec h
    obtain ⟨v, _, hf⟩ := List.mem_filterMap.mp h
    dsimp only at hf
    split at hf
    · cases hf
    case _ hg =>
      simp only [Option.some.injEq] at hf
      rw [← hf]
      show stripWs (stripWs v) ≠ []
      exact stripWs_stripWs_ne_nil fun h0 => hg (by rw [h0]; rfl)
  · intro lines ka rd mn ca rec h
    obtain ⟨raw, _, hf⟩ := List.mem_filterMap.mp h
    dsimp only at hf
    split at hf
    · cases hf
    case _ hg =>
      split at hf
      · cases hf
      simp only [Option.some.injEq] at hf
      rw [← hf]
      show stripWs (stripWs (collapseWs raw)) ≠ []
      refine stripWs_stripWs_ne_nil fun h0 => hg ?_
      rw [show limpar raw = stripWs (collapseWs raw) from rfl, h0]
      rfl
  · intro saldo rows rec h
    exact process_rows_orig h
  · intro lines
    exact List.length_filterMap_le _ _
  · intro vals
    exact List.length_filterMap_le _ _
  · intro lines ka rd mn ca
    exact List.length_filterMap_le _ _
  · exact stepRow_le_one
  · intro saldo rows
    exact process_rows_le rows saldo

/-- Witness for C8: a concrete text line and a concrete table row, each
yielding one record whose original line is non-blank. -/
theorem records_wellformed_witness :
    recOfLine (strL "01/02/2024 PIX 1,00 2,00")
        ∈ process_txt [strL "01/02/2024 PIX 1,00 2,00"] ∧
    stripWs (recOfLine (strL "01/02/2024 PIX 1,00 2,00")).linha_original ≠ [] ∧
    (stepRow none [some (strL "01/02/2024"), some (strL "PIX 1,00 2,00")]).2.length ≤ 1 := by
  have hm : recOfLine (strL "01/02/2024 PIX 1,00 2,00")
      ∈ process_txt [strL "01/02/2024 PIX 1,00 2,00"] := by decide
  exact ⟨hm, records_wellformed.1 [strL "01/02/2024 PIX 1,00 2,00"] _ hm,
    records_wellformed.2.2.2.2.2.2.2.1 none
      [some (strL "01/02/2024"), some (strL "PIX 1,00 2,00")]⟩

/-! ## Claim C6: valid amounts are single full-span tokens -/

/-- C6: for every string that consists exactly of one valid
Brazilian-formatted amount (per the spec's NumericToken grammar:
thousands-grouped decimals, signed simple decimals, or bare 1–3 digit
integers, and the plain `sign? digits , digits` form), the recognizer
returns exactly one token, spanning the full string. -/
theorem recognizer_full_span (s : Str) (h : specValidAmount s) :
    (scanTokens s).map (fun t => (t.start, t.len)) = [(0, s.length)] := by
  have hs1 : 1 ≤ s.length := by
    obtain ⟨c, rest, rfl, _⟩ := specValidAmount_head s h
    simp
  apply scan_single_full s hs1
  rcases h with ⟨sg, d, gs, dec, hsg, h1, h3, hdd, hgs, hdec, rfl⟩ |
    ⟨sg, d1, d2, hsg, hne1, hne2, hd1, hd2, rfl⟩
  · left
    have hdecdot : ∀ c, dec.head? = some c → c ≠ '.' := by
      rcases hdec with rfl | ⟨ds, rfl, _, _⟩
      · intro c hc; cases hc
      · intro c hc
        simp only [List.head?_cons, Option.some.injEq] at hc
        rw [← hc]
        decide
    have hJhead : ∀ c, ((gs.map fun g => '.' :: g).flatten ++ dec).head? = some c →
        isDigitC c = false := by
      cases gs with
      | nil =>
        rcases hdec with rfl | ⟨ds, rfl, _, _⟩
        · intro c hc; cases hc
        · intro c hc
          simp only [List.map_nil, List.flatten_nil, List.nil_append, List.head?_cons,
            Option.some.injEq] at hc
          rw [← hc]
          decide
      | cons g gs' =>
        intro c hc
        obtain ⟨a, b, c3, rfl⟩ := List.length_eq_three.mp (hgs _ (List.mem_cons_self _ _)).1
        simp only [List.map_cons, List.flatten_cons, List.cons_append, List.head?_cons,
          Option.some.injEq] at hc
        rw [← hc]
        decide
    have hmain := matchA_canonical sg d ((gs.map fun g => '.' :: g).flatten) dec gs.length
      hsg h1 h3 hdd (groupsCount_groups gs dec hgs hdecdot)
      (flatten_groups_length gs fun g hg => (hgs g hg).1) hJhead hdec
    simpa [List.append_assoc] using hmain
  · have hne1' : 1 ≤ d1.length := List.length_pos.mpr hne1
    by_cases hle : d1.length ≤ 3
    · left
      have hmain := matchA_canonical sg d1 [] (',' :: d2) 0 hsg hne1' hle hd1
        (by
          rw [List.nil_append]
          exact groupsCount_head_ne_dot fun c hc => by
            simp only [List.head?_cons, Option.some.injEq] at hc
            rw [← hc]
            decide)
        rfl
        (by
          intro c hc
          rw [List.nil_append] at hc
          simp only [List.head?_cons, Option.some.injEq] at hc
          rw [← hc]
          decide)
        (Or.inr ⟨d2, rfl, hne2, hd2⟩)
      simpa [List.append_assoc] using hmain
    · right
      constructor
      · have hmain := matchA_none_long sg d1 d2 hsg (by omega) hd1
        simpa [List.append_assoc] using hmain
      · have hmain := matchB_canonical sg d1 d2 hsg hne1 hne2 hd1 hd2
        simpa [List.append_assoc] using hmain

/-- Witness for C6 at the spec's example `"1.234,56"`: a valid amount of
the thousands-grouped decimal form, recognized as one token of length 8
starting at offset 0. -/
theorem recognizer_full_span_witness :
    specValidAmount (strL "1.234,56") ∧
    (scanTokens (strL "1.234,56")).map (fun t => (t.start, t.len)) = [(0, 8)] := by
  have hv : specValidAmount (strL "1.234,56") :=
    Or.inl ⟨[], ['1'], [['2', '3', '4']], [',', '5', '6'], Or.inl rfl, by decide, by decide,
      by decide, by decide, Or.inr ⟨['5', '6'], rfl, by decide, by decide⟩, by decide⟩
  refine ⟨hv, ?_⟩
  rw [recognizer_full_span (strL "1.234,56") hv]
  decide

/-! ## Claim C4: token boundary guards -/

/-- C4 counterexample: in `"9+3,4"` the recognizer emits the token
`"+3,4"` at offset 1 although the character at offset 0 is the digit `'9'`
— a token *is* immediately preceded by a digit (the `(?<!\d)` lookbehind
guards only the first regex alternative, and the signed simple form is
matched by the unguarded second alternative). -/
theorem token_after_digit_counterexample :
    (scanTokens (strL "9+3,4")).map (fun t => (t.start, t.text)) =
      [(0, strL "9"), (1, strL "+3,4")] ∧
    (strL "9+3,4")[0]? = some '9' ∧ isDigitC '9' = true := by
  decide

/-- C4 (amended): every token emitted through the thousands-grouped
alternative is not immediately preceded by a digit and not immediately
followed by a digit or a comma; every token whose text starts with a digit
(rather than an explicit sign) is not immediately preceded by a digit.
Only a sign-started token of the simple `sign digits , digits` form can
directly follow a digit. -/
theorem token_boundaries (s : Str) (t : Tok) (ht : t ∈ scanTokens s) :
    (t.fromA = true →
      ((t.start = 0 ∨ ∀ c2, s[t.start - 1]? = some c2 → isDigitC c2 = false) ∧
       (∀ c2, s[t.start + t.len]? = some c2 → isDigitC c2 = false ∧ c2 ≠ ','))) ∧
    (∀ c0, t.text.head? = some c0 → isDigitC c0 = true →
      (t.start = 0 ∨ ∀ c2, s[t.start - 1]? = some c2 → isDigitC c2 = false)) := by
  have h := scanAux_boundaries s (s.length + 1) 0 none (fun hh => absurd rfl hh)
    (by simp [prevDigit])
  rw [List.drop_zero] at h
  exact h t ht

/-- Witness for the amended C4: the A-token `"1,5"` of `"x 1,5 2"` sits at
offset 2; the characters at offsets 1 and 5 around it are spaces. -/
theorem token_boundaries_witness :
    (⟨2, 3, strL "1,5", true⟩ : Tok) ∈ scanTokens (strL "x 1,5 2") ∧
    (((⟨2, 3, strL "1,5", true⟩ : Tok).start = 0 ∨
      ∀ c2, (strL "x 1,5 2")[(⟨2, 3, strL "1,5", true⟩ : Tok).start - 1]? = some c2 →
        isDigitC c2 = false) ∧
     (∀ c2, (strL "x 1,5 2")[(⟨2, 3, strL "1,5", true⟩ : Tok).start
          + (⟨2, 3, strL "1,5", true⟩ : Tok).len]? = some c2 →
        isDigitC c2 = false ∧ c2 ≠ ',')) := by
  have hm : (⟨2, 3, strL "1,5", true⟩ : Tok) ∈ scanTokens (strL "x 1,5 2") := by decide
  exact ⟨hm, (token_boundaries (strL "x 1,5 2") _ hm).1 rfl⟩

/-! ## Claim C5: stopwords reject unconditionally -/

/-- C5: `classify` rejects every line containing a stopword as a
case-insensitive substring, regardless of the date flag, the numeric-token
minimum and the allow-keyword list: the stopword check comes first and the
allow-keyword check cannot override it. -/
theorem stopword_always_rejects (line : Str) (require_date : Bool) (min_numbers : Int)
    (contains_any : List Str) (w : Str) (hw : w ∈ STOPWORDS)
    (hsub : containsSub (upperL line) w = true) :
    is_transaction_line line require_date min_numbers contains_any = false := by
  have h : STOPWORDS.any (fun v => containsSub (upperL line) v) = true :=
    List.any_eq_true.mpr ⟨w, hw, hsub⟩
  unfold is_transaction_line
  simp [h]

/-- Witness for C5: a line containing `"agencia"` (so `"AGENCIA"` after
uppercasing) is rejected even though it starts with a date, has two numeric
tokens and contains the allow-keyword `"PIX"`. -/
theorem stopword_always_rejects_witness :
    strL "AGENCIA" ∈ STOPWORDS ∧
    containsSub (upperL (strL "05/02/2024 agencia PIX 1,00 2,00")) (strL "AGENCIA") = true ∧
    is_transaction_line (strL "05/02/2024 agencia PIX 1,00 2,00") true 2 [strL "PIX"]
      = false :=
  ⟨by decide, by decide,
    stopword_always_rejects _ true 2 [strL "PIX"] (strL "AGENCIA") (by decide) (by decide)⟩

/-! ## Claim C2: the single-token branch of the field extractor -/

/-- C2: when the recognizer finds exactly one numeric token in the working
string, `extract` returns an empty `secondary_value`, the token's text as
`balance`, and the entire working string (whitespace-collapsed and
trimmed) as `description` — the token is not stripped from it. -/
theorem extract_single_token (linha : Str) (t : Tok)
    (h : scanTokens (extrDataSem linha).2 = [t]) :
    extrair_campos_texto linha =
      ((extrDataSem linha).1, stripWs (collapseWs ((extrDataSem linha).2)), [], t.text) := by
  unfold extrair_campos_texto
  simp [h]

/-- Witness for C2, the spec's example: `extract("TARIFA MENSAL 25,00")`
yields `("", "TARIFA MENSAL 25,00", "", "25,00")`, the single number left
embedded in the description. -/
theorem extract_single_token_witness :
    scanTokens (extrDataSem (strL "TARIFA MENSAL 25,00")).2
        = [⟨14, 5, strL "25,00", true⟩] ∧
    extrair_campos_texto (strL "TARIFA MENSAL 25,00")
      = ([], strL "TARIFA MENSAL 25,00", [], strL "25,00") := by
  have h : scanTokens (extrDataSem (strL "TARIFA MENSAL 25,00")).2
      = [⟨14, 5, strL "25,00", true⟩] := by decide
  refine ⟨h, ?_⟩
  rw [extract_single_token (strL "TARIFA MENSAL 25,00") ⟨14, 5, strL "25,00", true⟩ h]
  decide

/-! ## Claim C1: the two-or-more-token branch of the field extractor -/

/-- C1: when the recognizer finds at least two numeric tokens in the
working string, `extract` returns the second-to-last token's text as
`secondary_value`, the last token's text as `balance`, and as
`description` the working string truncated at the start offset of the
second-to-last token, whitespace-collapsed and trimmed. -/
theorem extract_two_tokens (linha : Str) (pre : List Tok) (t1 t2 : Tok)
    (h : scanTokens (extrDataSem linha).2 = pre ++ [t1, t2]) :
    extrair_campos_texto linha =
      ((extrDataSem linha).1,
       stripWs (collapseWs (((extrDataSem linha).2).take t1.start)),
       t1.text, t2.text) := by
  unfold extrair_campos_texto
  simp only [h, List.reverse_append, List.reverse_cons, List.reverse_nil, List.nil_append,
    List.cons_append]
  rw [strip_collapse_rstrip]

/-- Witness for C1, the spec's example:
`extract("10/01/2024 PIX RECEBIDO 100,00 1.500,00")` yields
`("10/01/2024", "PIX RECEBIDO", "100,00", "1.500,00")`. -/
theorem extract_two_tokens_witness :
    scanTokens (extrDataSem (strL "10/01/2024 PIX RECEBIDO 100,00 1.500,00")).2
        = [⟨13, 6, strL "100,00", true⟩, ⟨20, 8, strL "1.500,00", true⟩] ∧
    extrair_campos_texto (strL "10/01/2024 PIX RECEBIDO 100,00 1.500,00")
      = (strL "10/01/2024", strL "PIX RECEBIDO", strL "100,00", strL "1.500,00") := by
  have h : scanTokens (extrDataSem (strL "10/01/2024 PIX RECEBIDO 100,00 1.500,00")).2
      = [⟨13, 6, strL "100,00", true⟩, ⟨20, 8, strL "1.500,00", true⟩] := by decide
  refine ⟨h, ?_⟩
  rw [extract_two_tokens _ [] _ _ h]
  decide

/-! ## Claim C9: table-mode fallback to the text path -/

/-- C9: with table mode enabled, a PDF whose table pass yields zero records
is retried with the text-line path over the same document, and the
zero-record table pass is not an error (the result is `ok`). -/
theorem tables_mode_fallback (tableRows : List TRow) (textLines : List Str) (cfg : Config)
    (hmode : cfg.tables_mode = true)
    (hempty : process_pdf_tables tableRows = []) :
    runExtraction (Source.pdf tableRows textLines) cfg =
      Except.ok (process_pdf_text textLines cfg.keep_all cfg.require_date
        cfg.min_numbers cfg.contains_any) := by
  unfold runExtraction
  rw [hmode]
  simp [hempty]

/-- Witness for C9 at a concrete document: a lone all-noise table row
produces no records and the text path's output is returned as `ok`. -/
theorem tables_mode_fallback_witness :
    process_pdf_tables [[some (strL "ruido")]] = [] ∧
    runExtraction (Source.pdf [[some (strL "ruido")]] [strL "05/02/2024 PIX 9,99 19,98"])
        ⟨false, true, 2, [], true⟩ =
      Except.ok (process_pdf_text [strL "05/02/2024 PIX 9,99 19,98"] false true 2 []) :=
  ⟨by decide,
    tables_mode_fallback [[some (strL "ruido")]] [strL "05/02/2024 PIX 9,99 19,98"]
      ⟨false, true, 2, [], true⟩ rfl (by decide)⟩

/-! ## Claim C3: running balance — seed, add, resync -/

/-- C3: from an uninitialized accumulator, a previous-balance row stating
`1.000,00`, then a row carrying the single token `50,00`, then a row
carrying the two tokens `10,00` and `1.040,00`: the second row's record
gets balance `1.050,00` (accumulator add, formatted back to Brazilian
text), and after the third row the accumulator holds `1040` (resync
overwrite from the row's stated balance, not an addition). -/
theorem table_running_balance (r1 r2 r3 : TRow)
    (h1a : ((rowCells r1).any fun c => !c.isEmpty) = true)
    (h1b : rowIsHeader r1 = false)
    (h1c : (rowFlat r1).isEmpty = false)
    (h1d : containsSub (rowJoinedUpper r1) (strL "SALDO ANTERIOR") = true)
    (h1e : (findall (rowFlat r1)).getLast? = some (strL "1.000,00"))
    (h2a : ((rowCells r2).any fun c => !c.isEmpty) = true)
    (h2b : rowIsHeader r2 = false)
    (h2c : (rowFlat r2).isEmpty = false)
    (h2d : containsSub (rowJoinedUpper r2) (strL "SALDO ANTERIOR") = false)
    (h2e : findall (rowDataResto r2).2 = [strL "50,00"])
    (h3a : ((rowCells r3).any fun c => !c.isEmpty) = true)
    (h3b : rowIsHeader r3 = false)
    (h3c : (rowFlat r3).isEmpty = false)
    (h3d : containsSub (rowJoinedUpper r3) (strL "SALDO ANTERIOR") = false)
    (h3e : findall (rowDataResto r3).2 = [strL "10,00", strL "1.040,00"]) :
    (stepRow (stepRow none r1).1 r2).2.map Rec.saldo = [strL "1.050,00"] ∧
    (stepRow (stepRow (stepRow none r1).1 r2).1 r3).1 = some (PyFloat.val 1040) := by
  have v1 : br_to_float (strL "1.000,00") = PyFloat.val 1000 := by decide
  have v2 : pyAdd (PyFloat.val 1000) (br_to_float (strL "50,00")) = PyFloat.val 1050 := by
    decide
  have v3 : float_to_br (PyFloat.val 1050) = strL "1.050,00" := by decide
  have v4 : br_to_float (strL "1.050,00") = PyFloat.val 1050 := by decide
  have v5 : (strL "1.050,00").isEmpty = false := by decide
  have v6 : br_to_float (strL "1.040,00") = PyFloat.val 1040 := by decide
  have v7 : (strL "1.040,00").isEmpty = false := by decide
  have e1 : (stepRow none r1).1 = some (PyFloat.val 1000) := by
    unfold stepRow
    simp [h1a, h1b, h1c, h1d, h1e, v1]
  rw [e1]
  have e2 : stepRow (some (PyFloat.val 1000)) r2 =
      emitRow (some (PyFloat.val 1050)) (rowDataResto r2).1
        (match rfindSub (rowDataResto r2).2 (strL "50,00") with
         | some i => stripWs ((rowDataResto r2).2.take i)
         | none => (rowDataResto r2).2)
        (strL "50,00") (strL "1.050,00") (rowJoined r2) := by
    unfold stepRow
    simp [h2a, h2b, h2c, h2d, h2e, v2, v3]
  rw [e2]
  have e2s : (emitRow (some (PyFloat.val 1050)) (rowDataResto r2).1
      (match rfindSub (rowDataResto r2).2 (strL "50,00") with
       | some i => stripWs ((rowDataResto r2).2.take i)
       | none => (rowDataResto r2).2)
      (strL "50,00") (strL "1.050,00") (rowJoined r2)).1 = some (PyFloat.val 1050) := by
    unfold emitRow
    simp [v5, v4]
  rw [e2s]
  constructor
  · unfold emitRow
    simp [v5]
  · unfold stepRow
    simp [h3a, h3b, h3c, h3d, h3e, emitRow, v7, v6]

/-- Witness for C3 at concrete rows: `SALDO ANTERIOR | 1.000,00`, then
`10/01/2024 | PIX RECEBIDO | 50,00`, then
`11/01/2024 | TED ENVIADA | 10,00 | 1.040,00`. -/
theorem table_running_balance_witness :
    (findall (rowFlat [some (strL "SALDO ANTERIOR"), none, some (strL "1.000,00")])).getLast?
        = some (strL "1.000,00") ∧
    findall (rowDataResto
        [some (strL "10/01/2024"), some (strL "PIX RECEBIDO"), some (strL "50,00")]).2
      = [strL "50,00"] ∧
    findall (rowDataResto [some (strL "11/01/2024"), some (strL "TED ENVIADA"),
        some (strL "10,00"), some (strL "1.040,00")]).2
      = [strL "10,00", strL "1.040,00"] ∧
    (stepRow (stepRow none
        [some (strL "SALDO ANTERIOR"), none, some (strL "1.000,00")]).1
        [some (strL "10/01/2024"), some (strL "PIX RECEBIDO"), some (strL "50,00")]).2.map
        Rec.saldo = [strL "1.050,00"] ∧
    (stepRow (stepRow (stepRow none
        [some (strL "SALDO ANTERIOR"), none, some (strL "1.000,00")]).1
        [some (strL "10/01/2024"), some (strL "PIX RECEBIDO"), some (strL "50,00")]).1
        [some (strL "11/01/2024"), some (strL "TED ENVIADA"), some (strL "10,00"),
         some (strL "1.040,00")]).1 = some (PyFloat.val 1040) := by
  have h := table_running_balance
    [some (strL "SALDO ANTERIOR"), none, some (strL "1.000,00")]
    [some (strL "10/01/2024"), some (strL "PIX RECEBIDO"), some (strL "50,00")]
    [some (strL "11/01/2024"), some (strL "TED ENVIADA"), some (strL "10,00"),
     some (strL "1.040,00")]
    (by decide) (by decide) (by decide) (by decide) (by decide)
    (by decide) (by decide) (by decide) (by decide) (by decide)
    (by decide) (by decide) (by decide) (by decide) (by decide)
  exact ⟨by decide, by decide, by decide, h.1, h.2⟩

/-! ## Claim C7: totality of `br_to_float` -/

/-- C7 counterexample: `",5"` is not well-formed Brazilian numeric text,
yet `br_to_float` maps it to `0.5`, not to zero — after the separator
rewrite it becomes the valid Python float literal `".5"`. -/
theorem br_to_float_malformed_nonzero :
    ¬ specValidAmount (strL ",5") ∧
    br_to_float (strL ",5") = PyFloat.val (1 / 2) ∧
    PyFloat.val (1 / 2) ≠ PyFloat.val 0 := by
  refine ⟨fun h => ?_, by decide, by decide⟩
  obtain ⟨c, rest, hs, hc⟩ := specValidAmount_head _ h
  have hcv : ',' = c := by
    have h2 := congrArg List.head? hs
    simpa [strL] using h2
  subst hcv
  rcases hc with h1 | h1 | h1 <;> simp [isDigitC] at h1

/-- C7 (amended): `br_to_float` is total, and every input whose
separator-normalized form Python's float conversion rejects converts to
zero; inputs that are malformed as Brazilian numeric text but normalize
to an accepted float literal (such as `",5"`) convert to that literal's
value instead of zero. -/
theorem br_to_float_rejected_to_zero (s : Str)
    (h : pyFloatOfString (normalizeBr (stripWs s)) = none) :
    br_to_float s = PyFloat.val 0 := by
  unfold br_to_float
  by_cases he : (stripWs s).isEmpty
  · rw [if_pos he]
  · rw [if_neg he, h]

/-- Witness for the amended C7: the unparseable `"abc"` converts to zero. -/
theorem br_to_float_rejected_to_zero_witness :
    pyFloatOfString (normalizeBr (stripWs (strL "abc"))) = none ∧
    br_to_float (strL "abc") = PyFloat.val 0 :=
  ⟨by decide, br_to_float_rejected_to_zero (strL "abc") (by decide)⟩

/-! ## Claim C10: a SALDO ANTERIOR row without numbers is a no-op -/

/-- C10: a table row whose joined uppercased text contains
`"SALDO ANTERIOR"` but whose flat text has no numeric token emits no
record, leaves the running-balance accumulator unchanged, and processing
continues with the remaining rows. -/
theorem saldo_anterior_no_number_skips (saldo : Option PyFloat) (r : TRow)
    (rest : List TRow)
    (hsa : containsSub (rowJoinedUpper r) (strL "SALDO ANTERIOR") = true)
    (hnone : findall (rowFlat r) = []) :
    process_rows saldo (r :: rest) = process_rows saldo rest := by
  have hstep : stepRow saldo r = (saldo, []) := by
    unfold stepRow
    rw [hsa, hnone]
    split <;> [rfl; skip]
    split <;> [rfl; skip]
    split <;> rfl
  simp [process_rows, hstep]

/-- Witness for C10: a `["SALDO ANTERIOR:"]` row with no number leaves the
accumulator at `1000` and the following normal row is still processed. -/
theorem saldo_anterior_no_number_skips_witness :
    containsSub (rowJoinedUpper [some (strL "SALDO ANTERIOR:")]) (strL "SALDO ANTERIOR")
        = true ∧
    findall (rowFlat [some (strL "SALDO ANTERIOR:")]) = [] ∧
    process_rows (some (PyFloat.val 1000))
        [[some (strL "SALDO ANTERIOR:")], [some (strL "02/02/2024 TARIFA 5,00")]] =
      process_rows (some (PyFloat.val 1000)) [[some (strL "02/02/2024 TARIFA 5,00")]] :=
  ⟨by decide, by decide,
    saldo_anterior_no_number_skips (some (PyFloat.val 1000)) [some (strL "SALDO ANTERIOR:")]
      [[some (strL "02/02/2024 TARIFA 5,00")]] (by decide) (by decide)⟩

end ProcExtrato
